import Mathlib

/-!
# Scoped key-value store (`pkgs/store/prefix/store.go`)

A shallow embedding of the namespace-scoping store decorator and of its
iterator, followed by the properties proved about them.

Conventions of the embedding

* A Go `[]byte` is a `Slice`: `none` is the nil slice, `some bs` a non-nil
  slice holding the bytes `bs` (possibly none at all).
* A call that may abort returns an `Outcome`; a method of a stateful object
  returns a `Res`: the outcome together with the state the object is left in,
  also when the call aborted.
* The parent store and its iterators are Go interface values
  (`types.Store`, `types.Iterator`); they are records of methods over an
  abstract state.
-/

namespace PrefixStore

/-! ## Byte strings -/

/-- One byte. -/
abbrev Byte := Fin 256

/-- The contents of a non-nil byte slice. -/
abbrev Bytes := List Byte

/-- A Go byte slice: `none` is nil. -/
abbrev Slice := Option Bytes

/-- The bytes held by a slice; a nil slice holds none (`len(nil) = 0`). -/
def Slice.bytes (s : Slice) : Bytes := s.getD []

/-- The bytes of an ASCII string literal. -/
def ascii (s : String) : Bytes := s.toList.map (fun c => Fin.ofNat c.toNat)

/-- The result of a call: a value, or an abort with its message. -/
inductive Outcome (α : Type) where
  | ok (a : α)
  | panic (msg : String)
  deriving DecidableEq, Repr

/-- The result of a method call on a stateful object: what the call
returned and the state the object is in afterwards. -/
structure Res (σ α : Type) where
  val : Outcome α
  st : σ
  deriving DecidableEq, Repr

/-- Go `bytes.HasPrefix(s, p)`: `len(s) >= len(p) && bytes.Equal(s[:len(p)], p)`. -/
def HasPrefix (s p : Slice) : Bool :=
  decide (p.bytes.length ≤ s.bytes.length) && (s.bytes.take p.bytes.length == p.bytes)

/-! ## The interfaces of package `types` -/

namespace Types

/-- The method set of `types.Iterator` over cursor states `ι`. `Domain` and
`Valid` are observers; the other methods may abort and may move the cursor. -/
structure Iterator (ι : Type) where
  Domain : ι → Slice × Slice
  Valid : ι → Bool
  Next : ι → Res ι Unit
  Key : ι → Res ι Slice
  Value : ι → Res ι Slice
  Close : ι → Res ι Unit

/-- The method set of `types.Store` over store states `σ`, handing out
iterators with cursor states `ι` whose methods are `it`. (`CacheWrap` builds a
`cache.Store`, which lies outside this development.) -/
structure Store (σ ι : Type) where
  Get : Slice → σ → Res σ Slice
  Has : Slice → σ → Res σ Bool
  Set : Slice → Slice → σ → Res σ Unit
  Delete : Slice → σ → Res σ Unit
  Iterator : Slice → Slice → σ → Res σ ι
  ReverseIterator : Slice → Slice → σ → Res σ ι
  Write : σ → Res σ Unit
  it : Types.Iterator ι

/-- The validity rules `types.AssertValidKey` and `types.AssertValidValue`
called by `Set`. Their definitions are not part of this package; they are a
parameter. -/
structure Validity where
  AssertValidKey : Slice → Outcome Unit
  AssertValidValue : Slice → Outcome Unit

/-- Modelled from the spec: `types.PrefixEndBytes` is not among the sources. The
reversed scan of the spec's tight upper bound: the argument lists the bytes
last byte first; the first byte that is not `0xFF` is incremented and the
`0xFF` bytes passed on the way are dropped; nil when no such byte exists. -/
def scanFromEnd : Bytes → Slice
  | [] => none
  | b :: rest => if b = 255 then scanFromEnd rest else some ((b + 1) :: rest)

/-- Modelled from the spec: `types.PrefixEndBytes` is not among the sources. The
bound is "computed by scanning `prefix` from the end, incrementing the first
byte (from the right) that is not `0xFF` and truncating everything after it;
if `prefix` is empty or consists entirely of `0xFF` bytes, the bound is
unbounded-high (nil)". -/
def PrefixEndBytes (bz : Slice) : Slice :=
  (scanFromEnd bz.bytes.reverse).map List.reverse

end Types

/-! ## `store.go` -/

/-- `type Store struct { parent types.Store; prefix []byte }`. -/
structure Store (σ ι : Type) where
  parent : Types.Store σ ι
  pfx : Slice

/-- `func New(parent types.Store, prefix []byte) Store`. -/
def New {σ ι : Type} (parent : Types.Store σ ι) (pfx : Slice) : Store σ ι :=
  { parent := parent, pfx := pfx }

/-- `func cloneAppend(bz []byte, tail []byte) (res []byte)`: a fresh slice of
length `len(bz)+len(tail)`, never nil. -/
def cloneAppend (bz tail : Slice) : Slice :=
  some (bz.bytes ++ tail.bytes)

/-- `func (s Store) key(key []byte) (res []byte)`. -/
def Store.key {σ ι : Type} (s : Store σ ι) (key : Slice) : Outcome Slice :=
  match key with
  | none => .panic "nil key on Store"
  | some _ => .ok (cloneAppend s.pfx key)

/-- `func (s Store) Write()`. -/
def Store.Write {σ ι : Type} (_s : Store σ ι) (st : σ) : Res σ Unit :=
  ⟨.panic "unexpected .Write() on prefix.Store", st⟩

/-- `func (s Store) Get(key []byte) []byte`. -/
def Store.Get {σ ι : Type} (s : Store σ ι) (key : Slice) (st : σ) : Res σ Slice :=
  match s.key key with
  | .panic m => ⟨.panic m, st⟩
  | .ok k => s.parent.Get k st

/-- `func (s Store) Has(key []byte) bool`. -/
def Store.Has {σ ι : Type} (s : Store σ ι) (key : Slice) (st : σ) : Res σ Bool :=
  match s.key key with
  | .panic m => ⟨.panic m, st⟩
  | .ok k => s.parent.Has k st

/-- `func (s Store) Set(key, value []byte)`. -/
def Store.Set {σ ι : Type} (V : Types.Validity) (s : Store σ ι) (key value : Slice)
    (st : σ) : Res σ Unit :=
  match V.AssertValidKey key with
  | .panic m => ⟨.panic m, st⟩
  | .ok _ =>
    match V.AssertValidValue value with
    | .panic m => ⟨.panic m, st⟩
    | .ok _ =>
      match s.key key with
      | .panic m => ⟨.panic m, st⟩
      | .ok k => s.parent.Set k value st

/-- `func (s Store) Delete(key []byte)`. -/
def Store.Delete {σ ι : Type} (s : Store σ ι) (key : Slice) (st : σ) : Res σ Unit :=
  match s.key key with
  | .panic m => ⟨.panic m, st⟩
  | .ok k => s.parent.Delete k st

/-- `func cpIncr(bz []byte) []byte`, wrapping `types.PrefixEndBytes`. -/
def cpIncr (bz : Slice) : Slice :=
  Types.PrefixEndBytes bz

/-- `func stripPrefix(key []byte, prefix []byte) []byte`. -/
def stripPrefix (key pfx : Slice) : Outcome Slice :=
  if key.bytes.length < pfx.bytes.length
      || !(key.bytes.take pfx.bytes.length == pfx.bytes) then
    .panic "should not happen"
  else
    .ok (key.map (fun bs => bs.drop pfx.bytes.length))

/-- `type prefixIterator struct { prefix []byte; start, end []byte;
iter types.Iterator; valid bool }`. -/
structure prefixIterator (ι : Type) where
  pfx : Slice
  start : Slice
  end_ : Slice
  iter : ι
  valid : Bool
  deriving DecidableEq, Repr

/-- `func newPrefixIterator(prefix, start, end []byte, parent types.Iterator)`.
The field `valid` is `parent.Valid() && bytes.HasPrefix(parent.Key(), prefix)`:
`parent.Key()` is called only when `parent.Valid()` holds. -/
def newPrefixIterator {ι : Type} (I : Types.Iterator ι) (pfx start end_ : Slice)
    (parent : ι) : Outcome (prefixIterator ι) :=
  if I.Valid parent then
    let r := I.Key parent
    match r.val with
    | .panic m => .panic m
    | .ok key =>
      .ok { pfx := pfx, start := start, end_ := end_, iter := r.st,
            valid := HasPrefix key pfx }
  else
    .ok { pfx := pfx, start := start, end_ := end_, iter := parent, valid := false }

/-- `func (iter *prefixIterator) Domain() ([]byte, []byte)`. -/
def prefixIterator.Domain {ι : Type} (iter : prefixIterator ι) : Slice × Slice :=
  (iter.start, iter.end_)

/-- `func (iter *prefixIterator) Valid() bool`. -/
def prefixIterator.Valid {ι : Type} (I : Types.Iterator ι) (iter : prefixIterator ι) : Bool :=
  iter.valid && I.Valid iter.iter

/-- `func (iter *prefixIterator) Next()`. -/
def prefixIterator.Next {ι : Type} (I : Types.Iterator ι) (iter : prefixIterator ι) :
    Res (prefixIterator ι) Unit :=
  if !iter.valid then
    ⟨.panic "prefixIterator invalid, cannot call Next()", iter⟩
  else
    let r := I.Next iter.iter
    match r.val with
    | .panic m => ⟨.panic m, { iter with iter := r.st }⟩
    | .ok _ =>
      if !I.Valid r.st then
        ⟨.ok (), { iter with iter := r.st, valid := false }⟩
      else
        let rk := I.Key r.st
        match rk.val with
        | .panic m => ⟨.panic m, { iter with iter := rk.st }⟩
        | .ok key =>
          if !HasPrefix key iter.pfx then
            ⟨.ok (), { iter with iter := rk.st, valid := false }⟩
          else
            ⟨.ok (), { iter with iter := rk.st }⟩

/-- `func (iter *prefixIterator) Key() (key []byte)`. -/
def prefixIterator.Key {ι : Type} (I : Types.Iterator ι) (iter : prefixIterator ι) :
    Res (prefixIterator ι) Slice :=
  if !iter.valid then
    ⟨.panic "prefixIterator invalid, cannot call Key()", iter⟩
  else
    let r := I.Key iter.iter
    match r.val with
    | .panic m => ⟨.panic m, { iter with iter := r.st }⟩
    | .ok key => ⟨stripPrefix key iter.pfx, { iter with iter := r.st }⟩

/-- `func (iter *prefixIterator) Value() []byte`. -/
def prefixIterator.Value {ι : Type} (I : Types.Iterator ι) (iter : prefixIterator ι) :
    Res (prefixIterator ι) Slice :=
  if !iter.valid then
    ⟨.panic "prefixIterator invalid, cannot call Value()", iter⟩
  else
    let r := I.Value iter.iter
    ⟨r.val, { iter with iter := r.st }⟩

/-- `func (iter *prefixIterator) Close()`. -/
def prefixIterator.Close {ι : Type} (I : Types.Iterator ι) (iter : prefixIterator ι) :
    Res (prefixIterator ι) Unit :=
  let r := I.Close iter.iter
  ⟨r.val, { iter with iter := r.st }⟩

/-- The method set of `*prefixIterator`
(`var _ types.Iterator = (*prefixIterator)(nil)`). -/
def prefixIterator.ops {ι : Type} (I : Types.Iterator ι) : Types.Iterator (prefixIterator ι) where
  Domain := prefixIterator.Domain
  Valid := prefixIterator.Valid I
  Next := prefixIterator.Next I
  Key := prefixIterator.Key I
  Value := prefixIterator.Value I
  Close := prefixIterator.Close I

/-- `func (s Store) Iterator(start, end []byte) types.Iterator`. -/
def Store.Iterator {σ ι : Type} (s : Store σ ι) (start end_ : Slice) (st : σ) :
    Res σ (prefixIterator ι) :=
  let newstart := cloneAppend s.pfx start
  let newend := match end_ with
    | none => cpIncr s.pfx
    | some _ => cloneAppend s.pfx end_
  let r := s.parent.Iterator newstart newend st
  match r.val with
  | .panic m => ⟨.panic m, r.st⟩
  | .ok iter => ⟨newPrefixIterator s.parent.it s.pfx start end_ iter, r.st⟩

/-- `func (s Store) ReverseIterator(start, end []byte) types.Iterator`. -/
def Store.ReverseIterator {σ ι : Type} (s : Store σ ι) (start end_ : Slice) (st : σ) :
    Res σ (prefixIterator ι) :=
  let newstart := cloneAppend s.pfx start
  let newend := match end_ with
    | none => cpIncr s.pfx
    | some _ => cloneAppend s.pfx end_
  let r := s.parent.ReverseIterator newstart newend st
  match r.val with
  | .panic m => ⟨.panic m, r.st⟩
  | .ok iter => ⟨newPrefixIterator s.parent.it s.pfx start end_ iter, r.st⟩

/-- The method set of `Store` (`var _ types.Store = Store{}`). -/
def Store.ops {σ ι : Type} (V : Types.Validity) (s : Store σ ι) :
    Types.Store σ (prefixIterator ι) where
  Get := s.Get
  Has := s.Has
  Set := s.Set V
  Delete := s.Delete
  Iterator := s.Iterator
  ReverseIterator := s.ReverseIterator
  Write := s.Write
  it := prefixIterator.ops s.parent.it

/-! ## Draining an iterator -/

/-- The client loop `for ; it.Valid(); it.Next() { k := it.Key(); v := it.Value() }`
run for at most `fuel` rounds: the pairs read, in the order read. It aborts
when a method aborts, and when the iterator is still valid after `fuel` rounds. -/
def Types.Iterator.drain {ι : Type} (I : Types.Iterator ι) :
    Nat → ι → Outcome (List (Slice × Slice))
  | 0, c => if I.Valid c then .panic "drain: out of fuel" else .ok []
  | fuel + 1, c =>
    if !I.Valid c then .ok []
    else
      let rk := I.Key c
      match rk.val with
      | .panic m => .panic m
      | .ok k =>
        let rv := I.Value rk.st
        match rv.val with
        | .panic m => .panic m
        | .ok v =>
          let rn := I.Next rv.st
          match rn.val with
          | .panic m => .panic m
          | .ok _ =>
            match Types.Iterator.drain I fuel rn.st with
            | .panic m => .panic m
            | .ok l => .ok ((k, v) :: l)

/-- The number of `Next` calls the client loop makes before `Valid` reports
false, when that happens within `fuel` rounds and no method aborts. -/
def Types.Iterator.steps {ι : Type} (I : Types.Iterator ι) : Nat → ι → Option Nat
  | 0, c => if I.Valid c then none else some 0
  | fuel + 1, c =>
    if !I.Valid c then some 0
    else
      match (I.Next c).val with
      | .panic _ => none
      | .ok _ => (Types.Iterator.steps I fuel (I.Next c).st).map (fun n => n + 1)

/-- `s.Iterator(start, end)` followed by the client loop. -/
def Store.scan {σ ι : Type} (s : Store σ ι) (start end_ : Slice) (fuel : Nat) (st : σ) :
    Outcome (List (Slice × Slice)) :=
  match (s.Iterator start end_ st).val with
  | .panic m => .panic m
  | .ok it => (prefixIterator.ops s.parent.it).drain fuel it

/-- `s.ReverseIterator(start, end)` followed by the client loop. -/
def Store.scanReverse {σ ι : Type} (s : Store σ ι) (start end_ : Slice) (fuel : Nat) (st : σ) :
    Outcome (List (Slice × Slice)) :=
  match (s.ReverseIterator start end_ st).val with
  | .panic m => .panic m
  | .ok it => (prefixIterator.ops s.parent.it).drain fuel it

/-! ## The contract of the parent store -/

/-- Does the result record an abort. -/
def Outcome.isPanic {α : Type} : Outcome α → Bool
  | .ok _ => false
  | .panic _ => true

/-- The range test of the ordered store contract: `start <= k < end`, a nil
bound being no bound. -/
def inRange (start end_ : Slice) (k : Bytes) : Bool :=
  (match start with
    | none => true
    | some a => decide (a ≤ k))
  && (match end_ with
    | none => true
    | some b => decide (k < b))

/-- The pair a scoped iterator over namespace `p` reports at the parent entry
`kv`: the key without its first `len(p)` bytes, and the value. -/
def logical (p : Slice) (kv : Bytes × Bytes) : Slice × Slice :=
  (some (kv.1.drop p.bytes.length), some kv.2)

/-- The spec's `translatedStart`: `prefix ++ start`, a nil `start` counting as
the zero-length string. -/
def translatedStart (p start : Slice) : Slice :=
  some (p.bytes ++ start.bytes)

/-- The spec's `translatedEnd`: `prefix ++ end` for a non-nil `end`, and the
bound `cpIncr prefix` for a nil `end`. -/
def translatedEnd (p end_ : Slice) : Slice :=
  match end_ with
  | none => cpIncr p
  | some e => some (p.bytes ++ e)

/-- Is there a first entry, with a key that begins with `p`: the condition under
which a scoped iterator over namespace `p` is valid at the head of the list. -/
def headUnder (p : Slice) : List (Bytes × Bytes) → Bool
  | [] => false
  | e :: _ => HasPrefix (some e.1) p

/-- The parent store behaves as a map from byte strings to byte strings:
`view st` is the map the store holds in state `st` (nil for an absent key). -/
structure MapLike {σ ι : Type} (P : Types.Store σ ι) (view : σ → Bytes → Slice) : Prop where
  get : ∀ k st, (P.Get (some k) st).val = .ok (view st k) ∧
    view (P.Get (some k) st).st = view st
  has : ∀ k st, (P.Has (some k) st).val = .ok (view st k).isSome ∧
    view (P.Has (some k) st).st = view st
  set : ∀ k v st, (P.Set (some k) (some v) st).val = .ok () ∧
    view (P.Set (some k) (some v) st).st = Function.update (view st) k (some v)
  delete : ∀ k st, (P.Delete (some k) st).val = .ok () ∧
    view (P.Delete (some k) st).st = Function.update (view st) k none

/-- The iterator behaves as a cursor over a list of entries: `items c` lists
the entries from the current one on. `Key` and `Value` read the current entry
and leave the list as it is; `Next` drops the current entry. -/
structure IterLike {ι : Type} (I : Types.Iterator ι) (items : ι → List (Bytes × Bytes)) :
    Prop where
  valid : ∀ c, I.Valid c = !(items c).isEmpty
  key : ∀ c e rest, items c = e :: rest →
    (I.Key c).val = .ok (some e.1) ∧ items (I.Key c).st = items c
  value : ∀ c e rest, items c = e :: rest →
    (I.Value c).val = .ok (some e.2) ∧ items (I.Value c).st = items c
  next : ∀ c e rest, items c = e :: rest →
    (I.Next c).val = .ok () ∧ items (I.Next c).st = rest

/-- The parent store keeps the ordered store contract for forward iteration:
`entries st` lists what the store holds in state `st`, by strictly ascending key,
and `Iterator(s, e)` enumerates the entries with `s <= key < e` (nil `e`: no upper
bound) in that order. -/
structure Ordered {σ ι : Type} (P : Types.Store σ ι) (entries : σ → List (Bytes × Bytes))
    (items : ι → List (Bytes × Bytes)) : Prop where
  iterLike : IterLike P.it items
  sorted : ∀ st, ((entries st).map Prod.fst).Sorted (· < ·)
  iterator : ∀ s e st, ∃ c, (P.Iterator (some s) e st).val = .ok c ∧
    items c = (entries st).filter (fun kv => inRange (some s) e kv.1)

/-- The parent store keeps the ordered store contract for reverse iteration:
`ReverseIterator(s, e)` enumerates the entries with `s <= key < e`, the same range
as `Iterator(s, e)`, by descending key. -/
structure ReverseOrdered {σ ι : Type} (P : Types.Store σ ι)
    (entries : σ → List (Bytes × Bytes)) (items : ι → List (Bytes × Bytes)) : Prop where
  reverse : ∀ s e st, ∃ c, (P.ReverseIterator (some s) e st).val = .ok c ∧
    items c = ((entries st).filter (fun kv => inRange (some s) e kv.1)).reverse

/-- The two descriptions of the content of the parent store agree: the store
holds the entry `k -> v` exactly when the map it behaves as sends `k` to `v`. -/
structure Consistent {σ : Type} (view : σ → Bytes → Slice)
    (entries : σ → List (Bytes × Bytes)) : Prop where
  mem_iff : ∀ st k v, (k, v) ∈ entries st ↔ view st k = some v

/-! ## Sequences of calls on a scoped iterator -/

/-- The methods of a scoped iterator, as a caller may invoke them. -/
inductive Call where
  | Domain
  | Valid
  | Next
  | Key
  | Value
  | Close
  deriving DecidableEq, Repr

/-- The state of a scoped iterator after one call, whether the call returned
or aborted (the caller recovering from the abort). `Domain` and `Valid` only
read the iterator. -/
def prefixIterator.after {ι : Type} (I : Types.Iterator ι) (it : prefixIterator ι) :
    Call → prefixIterator ι
  | .Domain => it
  | .Valid => it
  | .Next => (it.Next I).st
  | .Key => (it.Key I).st
  | .Value => (it.Value I).st
  | .Close => (it.Close I).st

/-- The state of a scoped iterator after a sequence of calls. -/
def prefixIterator.afterAll {ι : Type} (I : Types.Iterator ι) :
    prefixIterator ι → List Call → prefixIterator ι
  | it, [] => it
  | it, c :: cs => prefixIterator.afterAll I (it.after I c) cs

/-- The current key of the parent iterator only changes on `Next`: at a valid
position, a call of `Key` or of `Value` leaves the position valid and leaves
`Key` returning what it returned. -/
structure KeySteady {ι : Type} (I : Types.Iterator ι) : Prop where
  key : ∀ c k, I.Valid c = true → (I.Key c).val = .ok k →
    I.Valid (I.Key c).st = true ∧ (I.Key (I.Key c).st).val = .ok k
  value : ∀ c k, I.Valid c = true → (I.Key c).val = .ok k →
    I.Valid (I.Value c).st = true ∧ (I.Key (I.Value c).st).val = .ok k

/-- The states of a scoped iterator reachable from
`newPrefixIterator(prefix, start, end, parent)` by calls of `Next`, `Key` and
`Value` that return. -/
inductive Reachable {ι : Type} (I : Types.Iterator ι) (pfx start end_ : Slice) (parent : ι) :
    prefixIterator ι → Prop where
  | init (it : prefixIterator ι) :
      newPrefixIterator I pfx start end_ parent = .ok it → Reachable I pfx start end_ parent it
  | next (it : prefixIterator ι) :
      Reachable I pfx start end_ parent it → (it.Next I).val = .ok () →
      Reachable I pfx start end_ parent (it.Next I).st
  | key (it : prefixIterator ι) :
      Reachable I pfx start end_ parent it → (it.Key I).val.isPanic = false →
      Reachable I pfx start end_ parent (it.Key I).st
  | value (it : prefixIterator ι) :
      Reachable I pfx start end_ parent it → (it.Value I).val.isPanic = false →
      Reachable I pfx start end_ parent (it.Value I).st

/-! ## An in-memory ordered store

An instance of the two interfaces, used to run the scoped store on concrete
inputs. -/

namespace MemStore

/-- The cursor of an in-memory iterator: its domain and the entries from the
current one on. -/
structure Cursor where
  start : Slice
  end_ : Slice
  rest : List (Bytes × Bytes)
  deriving DecidableEq, Repr

/-- Put `k -> v` into a list of entries, before the first entry with a larger
key, or in place of the first entry met with the key `k`. -/
def insertOrd (k v : Bytes) : List (Bytes × Bytes) → List (Bytes × Bytes)
  | [] => [(k, v)]
  | e :: rest =>
    if k < e.1 then (k, v) :: e :: rest
    else if k = e.1 then (k, v) :: rest
    else e :: insertOrd k v rest

/-- The entries of a state by ascending key, the first entry of a key winning. -/
def canon (st : List (Bytes × Bytes)) : List (Bytes × Bytes) :=
  st.foldr (fun e acc => insertOrd e.1 e.2 acc) []

/-- The value of the first entry with key `k`, nil when there is none. -/
def lookup (k : Bytes) : List (Bytes × Bytes) → Slice
  | [] => none
  | e :: rest => if e.1 = k then some e.2 else lookup k rest

/-- The iterator methods of the in-memory store. -/
def iterOps : Types.Iterator Cursor where
  Domain := fun c => (c.start, c.end_)
  Valid := fun c => !c.rest.isEmpty
  Next := fun c =>
    match c.rest with
    | [] => ⟨.panic "iterator is invalid", c⟩
    | _ :: r => ⟨.ok (), { c with rest := r }⟩
  Key := fun c =>
    match c.rest with
    | [] => ⟨.panic "iterator is invalid", c⟩
    | e :: _ => ⟨.ok (some e.1), c⟩
  Value := fun c =>
    match c.rest with
    | [] => ⟨.panic "iterator is invalid", c⟩
    | e :: _ => ⟨.ok (some e.2), c⟩
  Close := fun c => ⟨.ok (), c⟩

/-- Modelled from the spec: an ordered key-value store as §6 describes it (the
stores of the repository are not among the sources), held in memory as a list
of entries. A nil key or a nil value is refused. -/
def ops : Types.Store (List (Bytes × Bytes)) Cursor where
  Get := fun key st =>
    match key with
    | none => ⟨.panic "key is nil", st⟩
    | some k => ⟨.ok (lookup k st), st⟩
  Has := fun key st =>
    match key with
    | none => ⟨.panic "key is nil", st⟩
    | some k => ⟨.ok (lookup k st).isSome, st⟩
  Set := fun key value st =>
    match key, value with
    | some k, some v => ⟨.ok (), insertOrd k v st⟩
    | none, _ => ⟨.panic "key is nil", st⟩
    | some _, none => ⟨.panic "value is nil", st⟩
  Delete := fun key st =>
    match key with
    | none => ⟨.panic "key is nil", st⟩
    | some k => ⟨.ok (), st.filter (fun e => e.1 ≠ k)⟩
  Iterator := fun start end_ st =>
    ⟨.ok ⟨start, end_, (canon st).filter (fun kv => inRange start end_ kv.1)⟩, st⟩
  ReverseIterator := fun start end_ st =>
    ⟨.ok ⟨start, end_, ((canon st).filter (fun kv => inRange start end_ kv.1)).reverse⟩, st⟩
  Write := fun st => ⟨.ok (), st⟩
  it := iterOps

/-- Validity rules that refuse exactly the nil slice. -/
def nonNil : Types.Validity where
  AssertValidKey := fun key =>
    match key with
    | none => .panic "key is nil"
    | some _ => .ok ()
  AssertValidValue := fun value =>
    match value with
    | none => .panic "value is nil"
    | some _ => .ok ()

end MemStore

end PrefixStore

/-! # Properties -/

namespace PrefixStore

/-! ## Lexicographic order on byte strings -/

theorem cons_lt_cons_iff (a b : Byte) (as bs : Bytes) :
    a :: as < b :: bs ↔ a < b ∨ (a = b ∧ as < bs) := by
  constructor
  · intro h
    cases h with
    | cons h => exact Or.inr ⟨rfl, h⟩
    | rel h => exact Or.inl h
  · rintro (h | ⟨rfl, h⟩)
    · exact List.Lex.rel h
    · exact List.Lex.cons h

theorem not_lt_nil (x : Bytes) : ¬ x < [] := by
  intro h
  cases h

theorem append_lt_append_iff (p a b : Bytes) : p ++ a < p ++ b ↔ a < b := by
  induction p with
  | nil => simp
  | cons c p ih =>
    simp only [List.cons_append, cons_lt_cons_iff, lt_self_iff_false, true_and, false_or, ih]

theorem append_le_append_iff (p a b : Bytes) : p ++ a ≤ p ++ b ↔ a ≤ b := by
  rw [← not_lt, ← not_lt, append_lt_append_iff]

/-- A byte string between `p ++ s` and `p ++ e` begins with `p`. -/
theorem prefix_of_between (p s e x : Bytes) (h1 : p ++ s ≤ x) (h2 : x < p ++ e) :
    p <+: x := by
  induction p generalizing x with
  | nil => exact List.nil_prefix
  | cons a p ih =>
    cases x with
    | nil =>
      exact absurd (List.nil_lt_cons a (p ++ s)) (not_lt.mpr h1)
    | cons c x =>
      rw [← not_lt] at h1
      simp only [List.cons_append, cons_lt_cons_iff, not_or, not_and] at h1 h2
      rcases h2 with h2 | ⟨rfl, h2⟩
      · exact absurd h2 h1.1
      · have h3 : p ++ s ≤ x := not_lt.mp (h1.2 rfl)
        exact (List.prefix_cons_inj c).mpr (ih x h3 h2)

/-- A byte string beginning with `p` is not below `p`. -/
theorem le_of_begins (p x : Bytes) (h : p <+: x) : p ≤ x := by
  obtain ⟨t, rfl⟩ := h
  have : p ++ [] ≤ p ++ t := (append_le_append_iff p [] t).mpr List.nil_le
  simpa using this

/-- Below or inside the namespace of a string of `0xFF` bytes: nothing lies above it. -/
theorem lt_or_prefix_of_all_ff (p : Bytes) (hp : ∀ b ∈ p, b = 255) (x : Bytes) :
    x < p ∨ p <+: x := by
  induction p generalizing x with
  | nil => exact Or.inr List.nil_prefix
  | cons a p ih =>
    have ha : a = 255 := hp a (List.mem_cons_self a p)
    subst ha
    cases x with
    | nil => exact Or.inl (List.nil_lt_cons _ _)
    | cons c x =>
      rcases ih (fun b hb => hp b (List.mem_cons_of_mem _ hb)) x with h | h
      · by_cases hc : c = 255
        · subst hc
          exact Or.inl ((cons_lt_cons_iff _ _ _ _).mpr (Or.inr ⟨rfl, h⟩))
        · refine Or.inl ((cons_lt_cons_iff _ _ _ _).mpr (Or.inl ?_))
          exact lt_of_le_of_ne (Fin.le_last c) hc
      · by_cases hc : c = 255
        · subst hc
          exact Or.inr ((List.prefix_cons_inj _).mpr h)
        · refine Or.inl ((cons_lt_cons_iff _ _ _ _).mpr (Or.inl ?_))
          exact lt_of_le_of_ne (Fin.le_last c) hc

/-! ## The upper bound `cpIncr` -/

theorem byte_succ_val (b : Byte) (h : b ≠ 255) : (b + 1).val = b.val + 1 := by
  have hb : b.val ≠ 255 := fun hv => h (Fin.ext hv)
  have hlt : b.val < 256 := b.isLt
  rw [Fin.val_add]
  simp only [Fin.val_one]
  omega

theorem byte_lt_succ_iff (c b : Byte) (h : b ≠ 255) : c < b + 1 ↔ c ≤ b := by
  rw [Fin.lt_def, Fin.le_def, byte_succ_val b h]
  omega

theorem scanFromEnd_eq_none_iff (l : Bytes) :
    Types.scanFromEnd l = none ↔ ∀ b ∈ l, b = 255 := by
  induction l with
  | nil => simp [Types.scanFromEnd]
  | cons a l ih =>
    by_cases ha : a = 255
    · simp [Types.scanFromEnd, ha, ih]
    · simp [Types.scanFromEnd, ha]

theorem scanFromEnd_replicate_append (k : Nat) (l : Bytes) :
    Types.scanFromEnd (List.replicate k 255 ++ l) = Types.scanFromEnd l := by
  induction k with
  | zero => simp
  | succ k ih => simp [List.replicate_succ, Types.scanFromEnd, ih]

theorem scanFromEnd_append_singleton (l : Bytes) (b : Byte) :
    Types.scanFromEnd (l ++ [b]) =
      match Types.scanFromEnd l with
      | some r => some (r ++ [b])
      | none => if b = 255 then none else some [b + 1] := by
  induction l with
  | nil => simp [Types.scanFromEnd]
  | cons a l ih =>
    by_cases ha : a = 255
    · simp [Types.scanFromEnd, ha, ih]
    · simp [Types.scanFromEnd, ha]

theorem cpIncr_eq_none_iff (p : Slice) : cpIncr p = none ↔ ∀ b ∈ p.bytes, b = 255 := by
  simp [cpIncr, Types.PrefixEndBytes, scanFromEnd_eq_none_iff]

/-- The bound computed front to back. -/
theorem cpIncr_cons (b : Byte) (rest : Bytes) :
    cpIncr (some (b :: rest)) =
      match cpIncr (some rest) with
      | some r => some (b :: r)
      | none => if b = 255 then none else some [b + 1] := by
  simp only [cpIncr, Types.PrefixEndBytes, Slice.bytes, Option.getD_some, List.reverse_cons,
    scanFromEnd_append_singleton]
  cases h : Types.scanFromEnd rest.reverse with
  | none =>
    by_cases hb : b = 255 <;> simp [hb]
  | some r => simp

/-- What lies below the bound: the strings below `p` and the strings beginning with `p`. -/
theorem lt_cpIncr_iff (p u : Bytes) (h : cpIncr (some p) = some u) (x : Bytes) :
    x < u ↔ (x < p ∨ p <+: x) := by
  induction p generalizing u x with
  | nil => simp [cpIncr, Types.PrefixEndBytes, Slice.bytes, Types.scanFromEnd] at h
  | cons b rest ih =>
    rw [cpIncr_cons] at h
    cases hr : cpIncr (some rest) with
    | some r =>
      rw [hr] at h
      simp only [Option.some.injEq] at h
      subst h
      cases x with
      | nil => simp [List.nil_lt_cons]
      | cons c x =>
        rw [cons_lt_cons_iff, cons_lt_cons_iff, ih r hr x]
        constructor
        · rintro (h | ⟨rfl, h | h⟩)
          · exact Or.inl (Or.inl h)
          · exact Or.inl (Or.inr ⟨rfl, h⟩)
          · exact Or.inr ((List.prefix_cons_inj _).mpr h)
        · rintro ((h | ⟨rfl, h⟩) | h)
          · exact Or.inl h
          · exact Or.inr ⟨rfl, Or.inl h⟩
          · have h2 := List.cons_prefix_cons.mp h
            exact Or.inr ⟨h2.1.symm, Or.inr h2.2⟩
    | none =>
      rw [hr] at h
      by_cases hb : b = 255
      · simp [hb] at h
      · simp only [hb, if_false, Option.some.injEq] at h
        subst h
        have hff : ∀ a ∈ rest, a = 255 := (cpIncr_eq_none_iff (some rest)).mp hr
        cases x with
        | nil => simp [List.nil_lt_cons]
        | cons c x =>
          rw [cons_lt_cons_iff, cons_lt_cons_iff, byte_lt_succ_iff c b hb]
          constructor
          · rintro (h | ⟨_, h⟩)
            · rcases lt_or_eq_of_le h with h | rfl
              · exact Or.inl (Or.inl h)
              · rcases lt_or_prefix_of_all_ff rest hff x with h | h
                · exact Or.inl (Or.inr ⟨rfl, h⟩)
                · exact Or.inr ((List.prefix_cons_inj _).mpr h)
            · exact absurd h (not_lt_nil x)
          · rintro ((h | ⟨rfl, _⟩) | h)
            · exact Or.inl (le_of_lt h)
            · exact Or.inl (le_refl _)
            · exact Or.inl (le_of_eq (List.cons_prefix_cons.mp h).1.symm)

theorem HasPrefix_iff (s p : Slice) : HasPrefix s p = true ↔ p.bytes <+: s.bytes := by
  simp only [HasPrefix, Bool.and_eq_true, decide_eq_true_eq, beq_iff_eq]
  constructor
  · rintro ⟨_, h⟩
    exact List.prefix_iff_eq_take.mpr h.symm
  · intro h
    exact ⟨h.length_le, (List.prefix_iff_eq_take.mp h).symm⟩

theorem cpIncr_bytes (p : Slice) : cpIncr p = cpIncr (some p.bytes) := by
  cases p <;> rfl

/-- C3: for a prefix `p` that is neither empty nor made only of `0xFF` bytes,
`cpIncr p` is a non-nil byte string `u` that is strictly greater than every
byte string beginning with `p`, and that is at most every byte string `c`
strictly greater than all byte strings beginning with `p`: the least such
bound in lexicographic order. -/
theorem cpIncr_least_upper_bound (p : Slice) (_hne : p.bytes ≠ [])
    (hff : ¬ ∀ b ∈ p.bytes, b = 255) :
    ∃ u, cpIncr p = some u ∧
      (∀ x : Bytes, HasPrefix (some x) p = true → x < u) ∧
      (∀ c : Bytes, (∀ x : Bytes, HasPrefix (some x) p = true → x < c) → u ≤ c) := by
  cases hu : cpIncr p with
  | none => exact absurd ((cpIncr_eq_none_iff p).mp hu) hff
  | some u =>
    have hu2 : cpIncr (some p.bytes) = some u := by rw [← cpIncr_bytes, hu]
    refine ⟨u, rfl, ?_, ?_⟩
    · intro x hx
      exact (lt_cpIncr_iff p.bytes u hu2 x).mpr (Or.inr ((HasPrefix_iff _ _).mp hx))
    · intro c hc
      by_contra hlt
      rw [not_le] at hlt
      rcases (lt_cpIncr_iff p.bytes u hu2 c).mp hlt with h | h
      · have : p.bytes < c := hc p.bytes ((HasPrefix_iff _ _).mpr (List.prefix_refl _))
        exact lt_asymm h this
      · exact lt_irrefl c (hc c ((HasPrefix_iff _ _).mpr h))

/-- The bound of the prefix `a 0xFF` is `b`: it is not nil, every string beginning
with the prefix lies below it, and it is the least such string. -/
theorem cpIncr_least_upper_bound_witness :
    Slice.bytes (some [97, 255]) ≠ [] ∧
    (¬ ∀ b ∈ Slice.bytes (some [97, 255]), b = 255) ∧
    ∃ u, cpIncr (some [97, 255]) = some u ∧
      (∀ x : Bytes, HasPrefix (some x) (some [97, 255]) = true → x < u) ∧
      (∀ c : Bytes, (∀ x : Bytes, HasPrefix (some x) (some [97, 255]) = true → x < c) →
        u ≤ c) :=
  ⟨by simp [Slice.bytes], by simp [Slice.bytes],
    cpIncr_least_upper_bound (some [97, 255]) (by simp [Slice.bytes]) (by simp [Slice.bytes])⟩

/-- C4: `cpIncr p` is nil exactly when `p` is empty or holds only `0xFF` bytes;
and when `p` is `a ++ [b] ++ (k bytes 0xFF)` with `b` not `0xFF`, `cpIncr p` is
`a ++ [b + 1]`, where `b + 1` does not wrap around: the rightmost byte that is not
`0xFF` is incremented and what follows it is cut off. -/
theorem cpIncr_eq_reference (p : Slice) :
    (cpIncr p = none ↔ (p.bytes = [] ∨ ∀ b ∈ p.bytes, b = 255)) ∧
    (∀ (a : Bytes) (b : Byte) (k : Nat),
      p.bytes = a ++ [b] ++ List.replicate k 255 → b ≠ 255 →
        cpIncr p = some (a ++ [b + 1]) ∧ (b + 1).val = b.val + 1) := by
  constructor
  · rw [cpIncr_eq_none_iff]
    constructor
    · exact fun h => Or.inr h
    · rintro (h | h)
      · simp [h]
      · exact h
  · intro a b k hp hb
    refine ⟨?_, byte_succ_val b hb⟩
    rw [cpIncr, Types.PrefixEndBytes, hp]
    simp only [List.reverse_append, List.reverse_replicate, List.reverse_cons, List.reverse_nil,
      List.nil_append, List.singleton_append, scanFromEnd_replicate_append]
    simp [Types.scanFromEnd, hb]

/-- On `0x61 0x01 0xFF 0xFF` the bound is `0x61 0x02`, and it is not nil. -/
theorem cpIncr_eq_reference_witness :
    (cpIncr (some [97, 1, 255, 255]) = none ↔
      (Slice.bytes (some [97, 1, 255, 255]) = [] ∨
        ∀ b ∈ Slice.bytes (some [97, 1, 255, 255]), b = 255)) ∧
    cpIncr (some [97, 1, 255, 255]) = some [97, 2] ∧ ((1 : Byte) + 1).val = 2 :=
  ⟨(cpIncr_eq_reference (some [97, 1, 255, 255])).1,
   (cpIncr_eq_reference (some [97, 1, 255, 255])).2 [97] 1 2 (by simp [Slice.bytes]) (by decide)⟩

/-! ## The in-memory store keeps the contracts -/

theorem MemStore.insertOrd_cons_lt (k v : Bytes) (e : Bytes × Bytes)
    (rest : List (Bytes × Bytes)) (h : k < e.1) :
    MemStore.insertOrd k v (e :: rest) = (k, v) :: e :: rest := by
  rw [MemStore.insertOrd, if_pos h]

theorem MemStore.insertOrd_cons_eq (k v : Bytes) (e : Bytes × Bytes)
    (rest : List (Bytes × Bytes)) (h : k = e.1) :
    MemStore.insertOrd k v (e :: rest) = (k, v) :: rest := by
  have h1 : ¬ k < e.1 := by rw [h]; exact lt_irrefl _
  rw [MemStore.insertOrd, if_neg h1, if_pos h]

theorem MemStore.insertOrd_cons_gt (k v : Bytes) (e : Bytes × Bytes)
    (rest : List (Bytes × Bytes)) (h1 : ¬ k < e.1) (h2 : ¬ k = e.1) :
    MemStore.insertOrd k v (e :: rest) = e :: MemStore.insertOrd k v rest := by
  rw [MemStore.insertOrd, if_neg h1, if_neg h2]

theorem MemStore.lookup_cons_eq (k : Bytes) (e : Bytes × Bytes) (rest : List (Bytes × Bytes))
    (h : e.1 = k) : MemStore.lookup k (e :: rest) = some e.2 := by
  rw [MemStore.lookup, if_pos h]

theorem MemStore.lookup_cons_ne (k : Bytes) (e : Bytes × Bytes) (rest : List (Bytes × Bytes))
    (h : ¬ e.1 = k) : MemStore.lookup k (e :: rest) = MemStore.lookup k rest := by
  rw [MemStore.lookup, if_neg h]

theorem MemStore.lookup_insertOrd_self (k v : Bytes) (st : List (Bytes × Bytes)) :
    MemStore.lookup k (MemStore.insertOrd k v st) = some v := by
  induction st with
  | nil => exact MemStore.lookup_cons_eq k (k, v) [] rfl
  | cons e rest ih =>
    by_cases h1 : k < e.1
    · rw [MemStore.insertOrd_cons_lt k v e rest h1]
      exact MemStore.lookup_cons_eq k (k, v) _ rfl
    · by_cases h2 : k = e.1
      · rw [MemStore.insertOrd_cons_eq k v e rest h2]
        exact MemStore.lookup_cons_eq k (k, v) _ rfl
      · rw [MemStore.insertOrd_cons_gt k v e rest h1 h2,
          MemStore.lookup_cons_ne k e _ (fun h => h2 h.symm), ih]

theorem MemStore.lookup_insertOrd_other (k v k2 : Bytes) (hne : k2 ≠ k)
    (st : List (Bytes × Bytes)) :
    MemStore.lookup k2 (MemStore.insertOrd k v st) = MemStore.lookup k2 st := by
  have hne2 : ¬ (k, v).1 = k2 := fun h => hne h.symm
  induction st with
  | nil =>
    show MemStore.lookup k2 ((k, v) :: []) = MemStore.lookup k2 []
    rw [MemStore.lookup_cons_ne k2 (k, v) [] hne2]
  | cons e rest ih =>
    by_cases h1 : k < e.1
    · rw [MemStore.insertOrd_cons_lt k v e rest h1, MemStore.lookup_cons_ne k2 (k, v) _ hne2]
    · by_cases h2 : k = e.1
      · have h3 : ¬ e.1 = k2 := fun h => hne (h2.trans h).symm
        rw [MemStore.insertOrd_cons_eq k v e rest h2, MemStore.lookup_cons_ne k2 (k, v) _ hne2,
          MemStore.lookup_cons_ne k2 e _ h3]
      · rw [MemStore.insertOrd_cons_gt k v e rest h1 h2]
        by_cases h4 : e.1 = k2
        · rw [MemStore.lookup_cons_eq k2 e _ h4, MemStore.lookup_cons_eq k2 e _ h4]
        · rw [MemStore.lookup_cons_ne k2 e _ h4, MemStore.lookup_cons_ne k2 e _ h4, ih]

theorem MemStore.lookup_filter_self (k : Bytes) (st : List (Bytes × Bytes)) :
    MemStore.lookup k (st.filter (fun e => e.1 ≠ k)) = none := by
  induction st with
  | nil => rfl
  | cons e rest ih =>
    by_cases h : e.1 = k
    · rw [List.filter_cons_of_neg (by simpa using h), ih]
    · rw [List.filter_cons_of_pos (by simpa using h), MemStore.lookup_cons_ne k e _ h, ih]

theorem MemStore.lookup_filter_other (k k2 : Bytes) (hne : k2 ≠ k) (st : List (Bytes × Bytes)) :
    MemStore.lookup k2 (st.filter (fun e => e.1 ≠ k)) = MemStore.lookup k2 st := by
  induction st with
  | nil => rfl
  | cons e rest ih =>
    by_cases h : e.1 = k
    · have h3 : ¬ e.1 = k2 := fun h4 => hne (h4.symm.trans h)
      rw [List.filter_cons_of_neg (by simpa using h), ih, MemStore.lookup_cons_ne k2 e _ h3]
    · rw [List.filter_cons_of_pos (by simpa using h)]
      by_cases h4 : e.1 = k2
      · rw [MemStore.lookup_cons_eq k2 e _ h4, MemStore.lookup_cons_eq k2 e _ h4]
      · rw [MemStore.lookup_cons_ne k2 e _ h4, MemStore.lookup_cons_ne k2 e _ h4, ih]

/-- The in-memory store behaves as a map. -/
theorem MemStore.mapLike : MapLike MemStore.ops (fun st k => MemStore.lookup k st) where
  get := fun _ _ => ⟨rfl, rfl⟩
  has := fun _ _ => ⟨rfl, rfl⟩
  set := by
    intro k v st
    refine ⟨rfl, ?_⟩
    funext k2
    by_cases h : k2 = k
    · subst h
      simp [MemStore.ops, MemStore.lookup_insertOrd_self]
    · simp [MemStore.ops, Function.update_noteq h, MemStore.lookup_insertOrd_other k v k2 h]
  delete := by
    intro k st
    refine ⟨rfl, ?_⟩
    funext k2
    by_cases h : k2 = k
    · subst h
      simpa [MemStore.ops] using MemStore.lookup_filter_self k2 st
    · simpa [MemStore.ops, Function.update_noteq h] using MemStore.lookup_filter_other k k2 h st

theorem MemStore.keys_insertOrd (k v : Bytes) (l : List (Bytes × Bytes)) :
    ∀ x ∈ (MemStore.insertOrd k v l).map Prod.fst, x = k ∨ x ∈ l.map Prod.fst := by
  induction l with
  | nil =>
    intro x hx
    exact Or.inl (by simpa [MemStore.insertOrd] using hx)
  | cons e rest ih =>
    intro x hx
    by_cases h1 : k < e.1
    · rw [MemStore.insertOrd_cons_lt k v e rest h1, List.map_cons, List.mem_cons] at hx
      exact hx
    · by_cases h2 : k = e.1
      · rw [MemStore.insertOrd_cons_eq k v e rest h2, List.map_cons, List.mem_cons] at hx
        rcases hx with hx | hx
        · exact Or.inl hx
        · exact Or.inr (List.mem_cons_of_mem _ hx)
      · rw [MemStore.insertOrd_cons_gt k v e rest h1 h2, List.map_cons, List.mem_cons] at hx
        rcases hx with hx | hx
        · exact Or.inr (by rw [hx, List.map_cons]; exact List.mem_cons_self _ _)
        · rcases ih x hx with h | h
          · exact Or.inl h
          · exact Or.inr (List.mem_cons_of_mem _ h)

theorem MemStore.sorted_insertOrd (k v : Bytes) (l : List (Bytes × Bytes))
    (h : (l.map Prod.fst).Sorted (· < ·)) :
    ((MemStore.insertOrd k v l).map Prod.fst).Sorted (· < ·) := by
  induction l with
  | nil => simp [MemStore.insertOrd]
  | cons e rest ih =>
    rw [List.map_cons, List.sorted_cons] at h
    by_cases h1 : k < e.1
    · rw [MemStore.insertOrd_cons_lt k v e rest h1, List.map_cons, List.map_cons,
        List.sorted_cons, List.sorted_cons]
      refine ⟨?_, h.1, h.2⟩
      intro b hb
      rcases List.mem_cons.mp hb with rfl | hb
      · exact h1
      · exact lt_trans h1 (h.1 b hb)
    · by_cases h2 : k = e.1
      · rw [MemStore.insertOrd_cons_eq k v e rest h2, List.map_cons, List.sorted_cons]
        refine ⟨?_, h.2⟩
        intro b hb
        show k < b
        rw [h2]
        exact h.1 b hb
      · rw [MemStore.insertOrd_cons_gt k v e rest h1 h2, List.map_cons, List.sorted_cons]
        have h3 : e.1 < k := lt_of_le_of_ne (not_lt.mp h1) (fun h => h2 h.symm)
        refine ⟨?_, ih h.2⟩
        intro b hb
        rcases MemStore.keys_insertOrd k v rest b hb with rfl | hb
        · exact h3
        · exact h.1 b hb

theorem MemStore.sorted_canon (st : List (Bytes × Bytes)) :
    ((MemStore.canon st).map Prod.fst).Sorted (· < ·) := by
  induction st with
  | nil => simp [MemStore.canon]
  | cons e rest ih => exact MemStore.sorted_insertOrd e.1 e.2 _ ih

theorem MemStore.iterLike : IterLike MemStore.iterOps (fun c => c.rest) where
  valid := fun _ => rfl
  key := by
    intro c e rest h
    simp [MemStore.iterOps, h]
  value := by
    intro c e rest h
    simp [MemStore.iterOps, h]
  next := by
    intro c e rest h
    simp [MemStore.iterOps, h]

/-- The in-memory store keeps the ordered store contract. -/
theorem MemStore.ordered : Ordered MemStore.ops MemStore.canon (fun c => c.rest) where
  iterLike := MemStore.iterLike
  sorted := MemStore.sorted_canon
  iterator := fun _ _ _ => ⟨_, rfl, rfl⟩

/-- The in-memory store keeps the contract of reverse iteration. -/
theorem MemStore.reverseOrdered :
    ReverseOrdered MemStore.ops MemStore.canon (fun c => c.rest) where
  reverse := fun _ _ _ => ⟨_, rfl, rfl⟩

/-! ## Reading back what was written -/

/-- C1: over a parent that behaves as a map, for a non-nil key `k` and a non-nil
value `v` that the validity rules accept, `Set(k, v)` on the scoped store
returns, and afterwards `Get(k)` returns `v` and `Has(k)` returns true. -/
theorem set_then_get_has {σ ι : Type} (V : Types.Validity) (s : Store σ ι)
    (view : σ → Bytes → Slice) (hP : MapLike s.parent view) (k v : Bytes) (st : σ)
    (hk : V.AssertValidKey (some k) = .ok ()) (hv : V.AssertValidValue (some v) = .ok ()) :
    (s.Set V (some k) (some v) st).val = .ok () ∧
    (s.Get (some k) (s.Set V (some k) (some v) st).st).val = .ok (some v) ∧
    (s.Has (some k) (s.Set V (some k) (some v) st).st).val = .ok true := by
  have hset : s.Set V (some k) (some v) st =
      s.parent.Set (some (s.pfx.bytes ++ k)) (some v) st := by
    simp [Store.Set, hk, hv, Store.key, cloneAppend, Slice.bytes]
  have hget : ∀ st2, s.Get (some k) st2 = s.parent.Get (some (s.pfx.bytes ++ k)) st2 := by
    intro st2
    simp [Store.Get, Store.key, cloneAppend, Slice.bytes]
  have hhas : ∀ st2, s.Has (some k) st2 = s.parent.Has (some (s.pfx.bytes ++ k)) st2 := by
    intro st2
    simp [Store.Has, Store.key, cloneAppend, Slice.bytes]
  obtain ⟨h1, h2⟩ := hP.set (s.pfx.bytes ++ k) v st
  rw [hset, hget, hhas]
  refine ⟨h1, ?_, ?_⟩
  · rw [(hP.get _ _).1, h2, Function.update_same]
  · rw [(hP.has _ _).1, h2, Function.update_same]
    rfl

/-- In the namespace `user:` of an empty in-memory store, `Set("alice", "1")`
returns, then `Get("alice")` returns `"1"` and `Has("alice")` returns true. -/
theorem set_then_get_has_witness :
    MemStore.nonNil.AssertValidKey (some (ascii "alice")) = .ok () ∧
    MemStore.nonNil.AssertValidValue (some (ascii "1")) = .ok () ∧
    ((New MemStore.ops (some (ascii "user:"))).Set MemStore.nonNil
        (some (ascii "alice")) (some (ascii "1")) []).val = .ok () ∧
    ((New MemStore.ops (some (ascii "user:"))).Get (some (ascii "alice"))
        ((New MemStore.ops (some (ascii "user:"))).Set MemStore.nonNil
          (some (ascii "alice")) (some (ascii "1")) []).st).val = .ok (some (ascii "1")) ∧
    ((New MemStore.ops (some (ascii "user:"))).Has (some (ascii "alice"))
        ((New MemStore.ops (some (ascii "user:"))).Set MemStore.nonNil
          (some (ascii "alice")) (some (ascii "1")) []).st).val = .ok true :=
  ⟨rfl, rfl, set_then_get_has MemStore.nonNil (New MemStore.ops (some (ascii "user:")))
    (fun st k => MemStore.lookup k st) MemStore.mapLike (ascii "alice") (ascii "1") [] rfl rfl⟩

/-! ## The scoped iterator over a list-like parent iterator -/

theorem stripPrefix_of_HasPrefix (key p : Slice) (h : HasPrefix key p = true) :
    stripPrefix key p = .ok (key.map (fun bs => bs.drop p.bytes.length)) := by
  simp only [HasPrefix, Bool.and_eq_true, decide_eq_true_eq] at h
  have h1 : ¬ key.bytes.length < p.bytes.length := not_lt.mpr h.1
  simp [stripPrefix, h1, h.2]

/-- The client loop stops at once on an iterator that is not valid. -/
theorem drain_of_not_valid {ι : Type} (I : Types.Iterator ι) (n : Nat) (c : ι)
    (h : I.Valid c = false) : I.drain n c = .ok [] := by
  cases n <;> simp [Types.Iterator.drain, h]

/-- One round of the client loop. -/
theorem drain_step {ι : Type} (I : Types.Iterator ι) (n : Nat) (c : ι) (k v : Slice)
    (l : List (Slice × Slice)) (hv : I.Valid c = true) (hk : (I.Key c).val = .ok k)
    (hval : (I.Value (I.Key c).st).val = .ok v)
    (hn : (I.Next (I.Value (I.Key c).st).st).val = .ok ())
    (hrest : I.drain n (I.Next (I.Value (I.Key c).st).st).st = .ok l) :
    I.drain (n + 1) c = .ok ((k, v) :: l) := by
  simp [Types.Iterator.drain, hv, hk, hval, hn, hrest]

theorem prefixIterator.Key_of_items {ι : Type} {I : Types.Iterator ι}
    {items : ι → List (Bytes × Bytes)} (h : IterLike I items) (it : prefixIterator ι)
    (e : Bytes × Bytes) (rest : List (Bytes × Bytes)) (hv : it.valid = true)
    (hi : items it.iter = e :: rest) (hp : HasPrefix (some e.1) it.pfx = true) :
    (it.Key I).val = .ok (some (e.1.drop it.pfx.bytes.length)) ∧
      (it.Key I).st.valid = true ∧ (it.Key I).st.pfx = it.pfx ∧
      items (it.Key I).st.iter = e :: rest := by
  obtain ⟨h1, h2⟩ := h.key it.iter e rest hi
  rw [hi] at h2
  have hN : it.Key I =
      ⟨.ok (some (e.1.drop it.pfx.bytes.length)), { it with iter := (I.Key it.iter).st }⟩ := by
    simp [prefixIterator.Key, hv, h1, stripPrefix_of_HasPrefix (some e.1) it.pfx hp]
  rw [hN]
  exact ⟨rfl, hv, rfl, h2⟩

theorem prefixIterator.Value_of_items {ι : Type} {I : Types.Iterator ι}
    {items : ι → List (Bytes × Bytes)} (h : IterLike I items) (it : prefixIterator ι)
    (e : Bytes × Bytes) (rest : List (Bytes × Bytes)) (hv : it.valid = true)
    (hi : items it.iter = e :: rest) :
    (it.Value I).val = .ok (some e.2) ∧
      (it.Value I).st.valid = true ∧ (it.Value I).st.pfx = it.pfx ∧
      items (it.Value I).st.iter = e :: rest := by
  obtain ⟨h1, h2⟩ := h.value it.iter e rest hi
  rw [hi] at h2
  have hN : it.Value I = ⟨.ok (some e.2), { it with iter := (I.Value it.iter).st }⟩ := by
    simp [prefixIterator.Value, hv, h1]
  rw [hN]
  exact ⟨rfl, hv, rfl, h2⟩

/-- The state a `Next` leaves behind: the parent cursor has moved one entry on,
and the iterator stays valid exactly when an entry is left whose key begins
with the prefix. -/
theorem prefixIterator.Next_of_items {ι : Type} {I : Types.Iterator ι}
    {items : ι → List (Bytes × Bytes)} (h : IterLike I items) (it : prefixIterator ι)
    (e : Bytes × Bytes) (rest : List (Bytes × Bytes)) (hv : it.valid = true)
    (hi : items it.iter = e :: rest) :
    (it.Next I).val = .ok () ∧ (it.Next I).st.pfx = it.pfx ∧
      items (it.Next I).st.iter = rest ∧
      (it.Next I).st.valid = headUnder it.pfx rest := by
  obtain ⟨h1, h2⟩ := h.next it.iter e rest hi
  cases rest with
  | nil =>
    have h3 : I.Valid (I.Next it.iter).st = false := by rw [h.valid, h2]; rfl
    have hN : it.Next I = ⟨.ok (), { it with iter := (I.Next it.iter).st, valid := false }⟩ := by
      simp [prefixIterator.Next, hv, h1, h3]
    rw [hN]
    exact ⟨rfl, rfl, h2, rfl⟩
  | cons e2 r2 =>
    have h3 : I.Valid (I.Next it.iter).st = true := by rw [h.valid, h2]; rfl
    obtain ⟨h4, h5⟩ := h.key (I.Next it.iter).st e2 r2 h2
    rw [h2] at h5
    by_cases hp : HasPrefix (some e2.1) it.pfx = true
    · have hN : it.Next I = ⟨.ok (), { it with iter := (I.Key (I.Next it.iter).st).st }⟩ := by
        simp [prefixIterator.Next, hv, h1, h3, h4, hp]
      rw [hN]
      exact ⟨rfl, rfl, h5, by rw [hv]; exact hp.symm⟩
    · have hN : it.Next I =
          ⟨.ok (), { it with iter := (I.Key (I.Next it.iter).st).st, valid := false }⟩ := by
        simp [prefixIterator.Next, hv, h1, h3, h4, hp]
      rw [hN]
      refine ⟨rfl, rfl, h5, ?_⟩
      simpa [headUnder] using hp

/-- What `newPrefixIterator` builds over a list-like parent cursor. -/
theorem newPrefixIterator_of_items {ι : Type} {I : Types.Iterator ι}
    {items : ι → List (Bytes × Bytes)} (h : IterLike I items) (p start end_ : Slice) (c : ι) :
    ∃ it, newPrefixIterator I p start end_ c = .ok it ∧ it.pfx = p ∧
      it.start = start ∧ it.end_ = end_ ∧ items it.iter = items c ∧
      it.valid = headUnder p (items c) := by
  cases hc : items c with
  | nil =>
    have h3 : I.Valid c = false := by rw [h.valid, hc]; rfl
    have hN : newPrefixIterator I p start end_ c =
        .ok { pfx := p, start := start, end_ := end_, iter := c, valid := false } := by
      simp [newPrefixIterator, h3]
    exact ⟨_, hN, rfl, rfl, rfl, hc, rfl⟩
  | cons e rest =>
    have h3 : I.Valid c = true := by rw [h.valid, hc]; rfl
    obtain ⟨h4, h5⟩ := h.key c e rest hc
    rw [hc] at h5
    have hN : newPrefixIterator I p start end_ c =
        .ok { pfx := p, start := start, end_ := end_, iter := (I.Key c).st,
              valid := HasPrefix (some e.1) p } := by
      simp [newPrefixIterator, h3, h4]
    exact ⟨_, hN, rfl, rfl, rfl, h5, rfl⟩

/-- Draining a scoped iterator: the entries of the parent cursor up to the
first one whose key does not begin with the prefix, each reported with the
prefix removed from its key. -/
theorem drain_prefixIterator {ι : Type} {I : Types.Iterator ι}
    {items : ι → List (Bytes × Bytes)} (h : IterLike I items) :
    ∀ (L : List (Bytes × Bytes)) (n : Nat) (it : prefixIterator ι),
      items it.iter = L → L.length ≤ n →
      it.valid = headUnder it.pfx L →
      (prefixIterator.ops I).drain n it =
        .ok ((L.takeWhile (fun kv => HasPrefix (some kv.1) it.pfx)).map (logical it.pfx)) := by
  intro L
  induction L with
  | nil =>
    intro n it _ _ hv
    have : (prefixIterator.ops I).Valid it = false := by
      simp [prefixIterator.ops, prefixIterator.Valid, hv, headUnder]
    rw [drain_of_not_valid _ n it this]
    rfl
  | cons e rest ih =>
    intro n it hi hn hv
    by_cases hp : HasPrefix (some e.1) it.pfx = true
    · have hv2 : it.valid = true := by rw [hv]; exact hp
      obtain ⟨m, rfl⟩ : ∃ m, n = m + 1 := ⟨n - 1, by simp at hn; omega⟩
      obtain ⟨k1, k2, k3, k4⟩ := prefixIterator.Key_of_items h it e rest hv2 hi hp
      obtain ⟨v1, v2, v3, v4⟩ := prefixIterator.Value_of_items h (it.Key I).st e rest k2 k4
      obtain ⟨n1, n2, n3, n4⟩ := prefixIterator.Next_of_items h ((it.Key I).st.Value I).st
        e rest v2 v4
      have hpfx : (((it.Key I).st.Value I).st.Next I).st.pfx = it.pfx := by
        rw [n2, v3, k3]
      have hvalid : (prefixIterator.ops I).Valid it = true := by
        simp [prefixIterator.ops, prefixIterator.Valid, hv2, h.valid, hi]
      have hrec := ih m (((it.Key I).st.Value I).st.Next I).st n3
        (by simp at hn; omega) (by rw [n4, n2, v3])
      rw [hpfx] at hrec
      rw [drain_step (prefixIterator.ops I) m it _ _ _ hvalid k1 v1 n1 hrec]
      simp [List.takeWhile_cons, hp, logical]
    · have hv2 : it.valid = false := by rw [hv]; simpa [headUnder] using hp
      have : (prefixIterator.ops I).Valid it = false := by
        simp [prefixIterator.ops, prefixIterator.Valid, hv2]
      rw [drain_of_not_valid _ n it this]
      simp [List.takeWhile_cons, hp]

/-! ## The translated range -/

/-- `Iterator` opens the parent iterator over the translated range and wraps it. -/
theorem Store.Iterator_eq {σ ι : Type} (s : Store σ ι) (start end_ : Slice) (st : σ) :
    s.Iterator start end_ st =
      match (s.parent.Iterator (translatedStart s.pfx start) (translatedEnd s.pfx end_) st).val
      with
      | .panic m => ⟨.panic m,
          (s.parent.Iterator (translatedStart s.pfx start) (translatedEnd s.pfx end_) st).st⟩
      | .ok iter => ⟨newPrefixIterator s.parent.it s.pfx start end_ iter,
          (s.parent.Iterator (translatedStart s.pfx start) (translatedEnd s.pfx end_) st).st⟩ := by
  cases end_ <;> rfl

/-- `ReverseIterator` opens the parent reverse iterator over the translated range
and wraps it. -/
theorem Store.ReverseIterator_eq {σ ι : Type} (s : Store σ ι) (start end_ : Slice) (st : σ) :
    s.ReverseIterator start end_ st =
      match (s.parent.ReverseIterator (translatedStart s.pfx start)
        (translatedEnd s.pfx end_) st).val with
      | .panic m => ⟨.panic m, (s.parent.ReverseIterator (translatedStart s.pfx start)
          (translatedEnd s.pfx end_) st).st⟩
      | .ok iter => ⟨newPrefixIterator s.parent.it s.pfx start end_ iter,
          (s.parent.ReverseIterator (translatedStart s.pfx start)
            (translatedEnd s.pfx end_) st).st⟩ := by
  cases end_ <;> rfl

/-- Every byte string inside the translated range begins with the prefix. -/
theorem HasPrefix_of_inRange (p start end_ : Slice) (x : Bytes)
    (h : inRange (translatedStart p start) (translatedEnd p end_) x = true) :
    HasPrefix (some x) p = true := by
  rw [HasPrefix_iff]
  show p.bytes <+: x
  simp only [inRange, translatedStart, Bool.and_eq_true, decide_eq_true_eq] at h
  obtain ⟨h1, h2⟩ := h
  have hp : p.bytes ≤ x :=
    le_trans (le_of_begins p.bytes (p.bytes ++ start.bytes) (List.prefix_append _ _)) h1
  cases end_ with
  | some e =>
    simp only [translatedEnd, decide_eq_true_eq] at h2
    exact prefix_of_between p.bytes start.bytes e x h1 h2
  | none =>
    cases hu : cpIncr p with
    | none =>
      rcases lt_or_prefix_of_all_ff p.bytes ((cpIncr_eq_none_iff p).mp hu) x with h3 | h3
      · exact absurd h3 (not_lt.mpr hp)
      · exact h3
    | some u =>
      simp only [translatedEnd, hu, decide_eq_true_eq] at h2
      have hu2 : cpIncr (some p.bytes) = some u := by rw [← cpIncr_bytes, hu]
      rcases (lt_cpIncr_iff p.bytes u hu2 x).mp h2 with h3 | h3
      · exact absurd h3 (not_lt.mpr hp)
      · exact h3

/-- With both logical bounds nil, the translated range is the namespace. -/
theorem inRange_nil_nil (p : Slice) (x : Bytes) :
    inRange (translatedStart p none) (translatedEnd p none) x = HasPrefix (some x) p := by
  rw [Bool.eq_iff_iff]
  constructor
  · exact HasPrefix_of_inRange p none none x
  · intro h
    have hx : p.bytes <+: x := (HasPrefix_iff _ _).mp h
    have h1 : p.bytes ≤ x := le_of_begins p.bytes x hx
    simp only [inRange, translatedStart, translatedEnd, Slice.bytes, Option.getD_none,
      List.append_nil, Bool.and_eq_true, decide_eq_true_eq]
    refine ⟨h1, ?_⟩
    cases hu : cpIncr p with
    | none => rfl
    | some u =>
      have hu2 : cpIncr (some p.bytes) = some u := by rw [← cpIncr_bytes, hu]
      simpa using (lt_cpIncr_iff p.bytes u hu2 x).mpr (Or.inr hx)

/-- A scan over a parent that keeps the ordered store contract: the entries of
the parent inside the translated range, in the parent's order, each reported
under its logical key. -/
theorem scan_eq {σ ι : Type} (s : Store σ ι) {entries : σ → List (Bytes × Bytes)}
    {items : ι → List (Bytes × Bytes)} (hP : Ordered s.parent entries items)
    (start end_ : Slice) (st : σ) (fuel : Nat) (hf : (entries st).length ≤ fuel) :
    s.scan start end_ fuel st =
      .ok (((entries st).filter (fun kv => inRange (translatedStart s.pfx start)
        (translatedEnd s.pfx end_) kv.1)).map (logical s.pfx)) := by
  obtain ⟨c, hc1, hc2⟩ := hP.iterator (s.pfx.bytes ++ start.bytes) (translatedEnd s.pfx end_) st
  obtain ⟨it, hit, hpfx, _, _, hitems, hvalid⟩ :=
    newPrefixIterator_of_items hP.iterLike s.pfx start end_ c
  have hc3 : (s.parent.Iterator (translatedStart s.pfx start)
      (translatedEnd s.pfx end_) st).val = .ok c := hc1
  have hc4 : items c = (entries st).filter (fun kv => inRange (translatedStart s.pfx start)
      (translatedEnd s.pfx end_) kv.1) := hc2
  have hscan : s.scan start end_ fuel st = (prefixIterator.ops s.parent.it).drain fuel it := by
    simp only [Store.scan, Store.Iterator_eq, hc3, hit]
  rw [hscan, drain_prefixIterator hP.iterLike (items c) fuel it hitems
    (by rw [hc2]; exact le_trans (List.length_filter_le _ _) hf) (by rw [hvalid, hpfx]), hpfx,
    hc4]
  congr 2
  refine List.takeWhile_eq_self_iff.mpr ?_
  intro kv hkv
  exact HasPrefix_of_inRange s.pfx start end_ kv.1 (List.mem_filter.mp hkv).2

/-- The same for a reverse scan: the same entries in the opposite order. -/
theorem scanReverse_eq {σ ι : Type} (s : Store σ ι) {entries : σ → List (Bytes × Bytes)}
    {items : ι → List (Bytes × Bytes)} (hP : Ordered s.parent entries items)
    (hR : ReverseOrdered s.parent entries items)
    (start end_ : Slice) (st : σ) (fuel : Nat) (hf : (entries st).length ≤ fuel) :
    s.scanReverse start end_ fuel st =
      .ok ((((entries st).filter (fun kv => inRange (translatedStart s.pfx start)
        (translatedEnd s.pfx end_) kv.1)).map (logical s.pfx)).reverse) := by
  obtain ⟨c, hc1, hc2⟩ := hR.reverse (s.pfx.bytes ++ start.bytes) (translatedEnd s.pfx end_) st
  obtain ⟨it, hit, hpfx, _, _, hitems, hvalid⟩ :=
    newPrefixIterator_of_items hP.iterLike s.pfx start end_ c
  have hc3 : (s.parent.ReverseIterator (translatedStart s.pfx start)
      (translatedEnd s.pfx end_) st).val = .ok c := hc1
  have hc4 : items c = ((entries st).filter (fun kv => inRange (translatedStart s.pfx start)
      (translatedEnd s.pfx end_) kv.1)).reverse := hc2
  have hscan : s.scanReverse start end_ fuel st =
      (prefixIterator.ops s.parent.it).drain fuel it := by
    simp only [Store.scanReverse, Store.ReverseIterator_eq, hc3, hit]
  rw [hscan, drain_prefixIterator hP.iterLike (items c) fuel it hitems
    (by rw [hc2, List.length_reverse]; exact le_trans (List.length_filter_le _ _) hf)
    (by rw [hvalid, hpfx]), hpfx, hc4, ← List.map_reverse]
  congr 2
  refine List.takeWhile_eq_self_iff.mpr ?_
  intro kv hkv
  exact HasPrefix_of_inRange s.pfx start end_ kv.1
    (List.mem_filter.mp (List.mem_reverse.mp hkv)).2

/-! ## What a scan yields -/

theorem drop_of_HasPrefix (p : Slice) (x : Bytes) (h : HasPrefix (some x) p = true) :
    p.bytes ++ x.drop p.bytes.length = x := by
  obtain ⟨t, rfl⟩ := (HasPrefix_iff _ _).mp h
  simp [Slice.bytes]

theorem HasPrefix_append (p : Slice) (k : Bytes) : HasPrefix (some (p.bytes ++ k)) p = true :=
  (HasPrefix_iff _ _).mpr (List.prefix_append _ _)

theorem mem_logical_iff (p : Slice) (l : List (Bytes × Bytes))
    (hl : ∀ kv ∈ l, HasPrefix (some kv.1) p = true) (k v : Bytes) :
    (some k, some v) ∈ l.map (logical p) ↔ (p.bytes ++ k, v) ∈ l := by
  simp only [List.mem_map, logical, Prod.mk.injEq, Option.some.injEq]
  constructor
  · rintro ⟨kv, hkv, hk, hv⟩
    have := drop_of_HasPrefix p kv.1 (hl kv hkv)
    rw [hk] at this
    rw [this, ← hv]
    exact hkv
  · intro h
    exact ⟨_, h, by simp, rfl⟩

theorem logical_injOn (p : Slice) (x y : Bytes × Bytes) (hx : HasPrefix (some x.1) p = true)
    (hy : HasPrefix (some y.1) p = true) (h : logical p x = logical p y) : x = y := by
  simp only [logical, Prod.mk.injEq, Option.some.injEq] at h
  have h1 := drop_of_HasPrefix p x.1 hx
  have h2 := drop_of_HasPrefix p y.1 hy
  rw [h.1, h2] at h1
  exact Prod.ext h1.symm h.2

theorem nodup_of_sorted_keys (l : List (Bytes × Bytes))
    (h : (l.map Prod.fst).Sorted (· < ·)) : l.Nodup :=
  List.Nodup.of_map Prod.fst (List.Sorted.nodup h)

theorem mem_pair_shape (p : Slice) (l : List (Bytes × Bytes)) :
    ∀ kv ∈ l.map (logical p), ∃ k v : Bytes, kv = (some k, some v) := by
  intro kv hkv
  obtain ⟨e, _, rfl⟩ := List.mem_map.mp hkv
  exact ⟨_, _, rfl⟩

/-- C2: over a parent that keeps the ordered store contract, draining the scoped
`Iterator(nil, nil)` (with fuel for every entry of the parent) returns the list
`L` of the parent entries whose key begins with the prefix, in the parent's
order, each under its logical key. So `L` holds a pair `(k, v)` exactly when the
parent holds `p ++ k -> v`, holds no pair twice, and holds only pairs of non-nil
slices; entries whose key does not begin with `p` contribute nothing. -/
theorem scan_nil_nil_yields_namespace {σ ι : Type} (s : Store σ ι)
    (entries : σ → List (Bytes × Bytes)) (items : ι → List (Bytes × Bytes))
    (hP : Ordered s.parent entries items) (st : σ) (fuel : Nat)
    (hf : (entries st).length ≤ fuel) :
    ∃ L, s.scan none none fuel st = .ok L ∧
      L = ((entries st).filter (fun kv => HasPrefix (some kv.1) s.pfx)).map (logical s.pfx) ∧
      L.Nodup ∧
      (∀ k v : Bytes, (some k, some v) ∈ L ↔ (s.pfx.bytes ++ k, v) ∈ entries st) ∧
      (∀ kv ∈ L, ∃ k v : Bytes, kv = (some k, some v)) := by
  have hfilter : (entries st).filter (fun kv => inRange (translatedStart s.pfx none)
      (translatedEnd s.pfx none) kv.1) =
      (entries st).filter (fun kv => HasPrefix (some kv.1) s.pfx) := by
    congr 1
    funext kv
    exact inRange_nil_nil s.pfx kv.1
  have hall : ∀ kv ∈ (entries st).filter (fun kv => HasPrefix (some kv.1) s.pfx),
      HasPrefix (some kv.1) s.pfx = true := fun kv hkv => (List.mem_filter.mp hkv).2
  refine ⟨_, by rw [scan_eq s hP none none st fuel hf, hfilter], rfl, ?_, ?_, ?_⟩
  · refine List.Nodup.map_on ?_ ((nodup_of_sorted_keys _ (hP.sorted st)).filter _)
    intro x hx y hy hxy
    exact logical_injOn s.pfx x y (hall x hx) (hall y hy) hxy
  · intro k v
    rw [mem_logical_iff s.pfx _ hall k v, List.mem_filter]
    constructor
    · exact fun h => h.1
    · exact fun h => ⟨h, HasPrefix_append s.pfx k⟩
  · exact mem_pair_shape s.pfx _

/-- The scenario of the spec: in the namespace `user:` of an in-memory store that
also holds `admin:x` and `usez`, after `Set("alice", "1")` and `Set("bob", "2")`
the forward scan with nil bounds yields `[("alice","1"), ("bob","2")]`. -/
theorem scan_nil_nil_yields_namespace_witness :
    (New MemStore.ops (some (ascii "user:"))).scan none none 4
      ((New MemStore.ops (some (ascii "user:"))).Set MemStore.nonNil
        (some (ascii "bob")) (some (ascii "2"))
        ((New MemStore.ops (some (ascii "user:"))).Set MemStore.nonNil
          (some (ascii "alice")) (some (ascii "1"))
          [(ascii "admin:x", ascii "9"), (ascii "usez", ascii "3")]).st).st
      = .ok [(some (ascii "alice"), some (ascii "1")), (some (ascii "bob"), some (ascii "2"))] ∧
    ∃ L, (New MemStore.ops (some (ascii "user:"))).scan none none 4
      [(ascii "admin:x", ascii "9"), (ascii "user:alice", ascii "1"),
        (ascii "user:bob", ascii "2"), (ascii "usez", ascii "3")] = .ok L ∧
      L = ((MemStore.canon [(ascii "admin:x", ascii "9"), (ascii "user:alice", ascii "1"),
          (ascii "user:bob", ascii "2"), (ascii "usez", ascii "3")]).filter
            (fun kv => HasPrefix (some kv.1) (some (ascii "user:")))).map
              (logical (some (ascii "user:"))) ∧
      L.Nodup ∧
      (∀ k v : Bytes, (some k, some v) ∈ L ↔
        (Slice.bytes (some (ascii "user:")) ++ k, v) ∈
          MemStore.canon [(ascii "admin:x", ascii "9"), (ascii "user:alice", ascii "1"),
            (ascii "user:bob", ascii "2"), (ascii "usez", ascii "3")]) ∧
      (∀ kv ∈ L, ∃ k v : Bytes, kv = (some k, some v)) :=
  ⟨by decide,
   scan_nil_nil_yields_namespace (New MemStore.ops (some (ascii "user:"))) MemStore.canon
    (fun c => c.rest) MemStore.ordered
    [(ascii "admin:x", ascii "9"), (ascii "user:alice", ascii "1"),
      (ascii "user:bob", ascii "2"), (ascii "usez", ascii "3")] 4 (by decide)⟩

/-! ## Namespaces that extend the prefix -/

/-- C5, as stated, fails: the store scoped to `ab` over a parent holding
`abc1 -> v` builds a valid iterator standing on that entry, whose key begins
with the longer prefix `abc`, and the scan with nil bounds yields it as
`("c1", "v")`. -/
theorem scan_visits_extending_namespace :
    HasPrefix (some (ascii "abc")) (some (ascii "ab")) = true ∧
    HasPrefix (some (ascii "abc1")) (some (ascii "abc")) = true ∧
    ((New MemStore.ops (some (ascii "ab"))).Iterator none none
        [(ascii "abc1", ascii "v")]).val =
      .ok { pfx := some (ascii "ab"), start := none, end_ := none,
            iter := ⟨some (ascii "ab"), some (ascii "ac"), [(ascii "abc1", ascii "v")]⟩,
            valid := true } ∧
    (New MemStore.ops (some (ascii "ab"))).scan none none 1 [(ascii "abc1", ascii "v")] =
      .ok [(some (ascii "c1"), some (ascii "v"))] := by
  decide

/-- C5, amended: over a parent that keeps the ordered store contract, the scan
with nil bounds of the store scoped to `p` visits every parent entry whose key
begins with an extension `p ++ x` of the prefix: the entry `p ++ x ++ r -> v` is
yielded as `(x ++ r, v)`. What the scan leaves out is what lies outside
the namespace of `p`: every pair `(k, v)` it yields is the parent entry
`p ++ k -> v`, whose key begins with `p`. -/
theorem scan_includes_extending_namespace {σ ι : Type} (s : Store σ ι)
    (entries : σ → List (Bytes × Bytes)) (items : ι → List (Bytes × Bytes))
    (hP : Ordered s.parent entries items) (st : σ) (fuel : Nat)
    (hf : (entries st).length ≤ fuel) (x : Bytes) :
    ∃ L, s.scan none none fuel st = .ok L ∧
      (∀ r v : Bytes, (s.pfx.bytes ++ x ++ r, v) ∈ entries st →
        HasPrefix (some (s.pfx.bytes ++ x ++ r)) (some (s.pfx.bytes ++ x)) = true ∧
        (some (x ++ r), some v) ∈ L) ∧
      (∀ kv ∈ L, ∃ k v : Bytes, kv = (some k, some v) ∧
        (s.pfx.bytes ++ k, v) ∈ entries st ∧
        HasPrefix (some (s.pfx.bytes ++ k)) s.pfx = true) := by
  have hfilter : (entries st).filter (fun kv => inRange (translatedStart s.pfx none)
      (translatedEnd s.pfx none) kv.1) =
      (entries st).filter (fun kv => HasPrefix (some kv.1) s.pfx) := by
    congr 1
    funext kv
    exact inRange_nil_nil s.pfx kv.1
  have hall : ∀ kv ∈ (entries st).filter (fun kv => HasPrefix (some kv.1) s.pfx),
      HasPrefix (some kv.1) s.pfx = true := fun kv hkv => (List.mem_filter.mp hkv).2
  refine ⟨_, by rw [scan_eq s hP none none st fuel hf, hfilter], ?_, ?_⟩
  · intro r v hmem
    refine ⟨(HasPrefix_iff _ _).mpr (List.prefix_append _ _), ?_⟩
    rw [mem_logical_iff s.pfx _ hall (x ++ r) v, List.mem_filter, ← List.append_assoc]
    exact ⟨hmem, by rw [List.append_assoc]; exact HasPrefix_append s.pfx (x ++ r)⟩
  · intro kv hkv
    obtain ⟨k, v, rfl⟩ := mem_pair_shape s.pfx _ kv hkv
    refine ⟨k, v, rfl, ?_, HasPrefix_append s.pfx k⟩
    exact (List.mem_filter.mp ((mem_logical_iff s.pfx _ hall k v).mp hkv)).1

/-- The store scoped to `ab` over `aa1`, `ab0`, `abc1`, `abc2`, `ac` yields the
three entries of its namespace, the two under `abc` among them. -/
theorem scan_includes_extending_namespace_witness :
    (New MemStore.ops (some (ascii "ab"))).scan none none 5
      [(ascii "aa1", ascii "0"), (ascii "ab0", ascii "1"), (ascii "abc1", ascii "2"),
        (ascii "abc2", ascii "3"), (ascii "ac", ascii "4")] =
      .ok [(some (ascii "0"), some (ascii "1")), (some (ascii "c1"), some (ascii "2")),
        (some (ascii "c2"), some (ascii "3"))] ∧
    ∃ L, (New MemStore.ops (some (ascii "ab"))).scan none none 5
      [(ascii "aa1", ascii "0"), (ascii "ab0", ascii "1"), (ascii "abc1", ascii "2"),
        (ascii "abc2", ascii "3"), (ascii "ac", ascii "4")] = .ok L ∧
      (∀ r v : Bytes, (Slice.bytes (some (ascii "ab")) ++ ascii "c" ++ r, v) ∈
          MemStore.canon [(ascii "aa1", ascii "0"), (ascii "ab0", ascii "1"),
            (ascii "abc1", ascii "2"), (ascii "abc2", ascii "3"), (ascii "ac", ascii "4")] →
        HasPrefix (some (Slice.bytes (some (ascii "ab")) ++ ascii "c" ++ r))
          (some (Slice.bytes (some (ascii "ab")) ++ ascii "c")) = true ∧
        (some (ascii "c" ++ r), some v) ∈ L) ∧
      (∀ kv ∈ L, ∃ k v : Bytes, kv = (some k, some v) ∧
        (Slice.bytes (some (ascii "ab")) ++ k, v) ∈
          MemStore.canon [(ascii "aa1", ascii "0"), (ascii "ab0", ascii "1"),
            (ascii "abc1", ascii "2"), (ascii "abc2", ascii "3"), (ascii "ac", ascii "4")] ∧
        HasPrefix (some (Slice.bytes (some (ascii "ab")) ++ k)) (some (ascii "ab")) = true) :=
  ⟨by decide,
   scan_includes_extending_namespace (New MemStore.ops (some (ascii "ab"))) MemStore.canon
    (fun c => c.rest) MemStore.ordered
    [(ascii "aa1", ascii "0"), (ascii "ab0", ascii "1"), (ascii "abc1", ascii "2"),
      (ascii "abc2", ascii "3"), (ascii "ac", ascii "4")] 5 (by decide) (ascii "c")⟩

/-! ## Order of a scan -/

theorem keys_of_logical (p : Slice) (l : List (Bytes × Bytes)) :
    (l.map (logical p)).map (fun kv => kv.1.bytes) =
      l.map (fun kv => kv.1.drop p.bytes.length) := by
  rw [List.map_map]
  rfl

/-- The logical keys of parent entries of the namespace ascend as the parent
keys do. -/
theorem sorted_logical_keys (p : Slice) (l : List (Bytes × Bytes))
    (hl : ∀ kv ∈ l, HasPrefix (some kv.1) p = true)
    (hs : (l.map Prod.fst).Sorted (· < ·)) :
    ((l.map (logical p)).map (fun kv => kv.1.bytes)).Sorted (· < ·) := by
  rw [keys_of_logical]
  unfold List.Sorted at hs ⊢
  rw [List.pairwise_map] at hs ⊢
  refine hs.imp_of_mem ?_
  intro a b ha hb hab
  have h1 := drop_of_HasPrefix p a.1 (hl a ha)
  have h2 := drop_of_HasPrefix p b.1 (hl b hb)
  rw [← h1, ← h2] at hab
  exact (append_lt_append_iff _ _ _).mp hab

/-- C6: over a parent that keeps the ordered store contract (its forward iterator
ascending, its reverse iterator descending over the same range),
for every logical `start` and `end`, nil or not: `Iterator(start, end)` drains to
a list `L` whose logical keys are strictly ascending in lexicographic order, and
`ReverseIterator(start, end)` drains to exactly the reverse of `L`. -/
theorem scan_ascending_reverse_mirrors {σ ι : Type} (s : Store σ ι)
    (entries : σ → List (Bytes × Bytes)) (items : ι → List (Bytes × Bytes))
    (hP : Ordered s.parent entries items) (hR : ReverseOrdered s.parent entries items)
    (start end_ : Slice) (st : σ) (fuel : Nat) (hf : (entries st).length ≤ fuel) :
    ∃ L, s.scan start end_ fuel st = .ok L ∧
      s.scanReverse start end_ fuel st = .ok L.reverse ∧
      (L.map (fun kv => kv.1.bytes)).Sorted (· < ·) ∧
      (∀ kv ∈ L, ∃ k v : Bytes, kv = (some k, some v)) := by
  refine ⟨_, scan_eq s hP start end_ st fuel hf, scanReverse_eq s hP hR start end_ st fuel hf,
    ?_, mem_pair_shape s.pfx _⟩
  refine sorted_logical_keys s.pfx _ ?_ ?_
  · intro kv hkv
    exact HasPrefix_of_inRange s.pfx start end_ kv.1 (List.mem_filter.mp hkv).2
  · have := hP.sorted st
    unfold List.Sorted at this ⊢
    rw [List.pairwise_map] at this ⊢
    exact this.filter _

/-- In the namespace `user:` the scan from `"b"` (inclusive) to `"d"` (exclusive)
yields `bob`, `carol` in this order, and the reverse scan `carol`, `bob`. -/
theorem scan_ascending_reverse_mirrors_witness :
    (New MemStore.ops (some (ascii "user:"))).scan (some (ascii "b")) (some (ascii "d")) 5
      [(ascii "admin:x", ascii "9"), (ascii "user:alice", ascii "1"),
        (ascii "user:bob", ascii "2"), (ascii "user:carol", ascii "3"),
        (ascii "user:dave", ascii "4")] =
      .ok [(some (ascii "bob"), some (ascii "2")), (some (ascii "carol"), some (ascii "3"))] ∧
    (New MemStore.ops (some (ascii "user:"))).scanReverse (some (ascii "b"))
      (some (ascii "d")) 5
      [(ascii "admin:x", ascii "9"), (ascii "user:alice", ascii "1"),
        (ascii "user:bob", ascii "2"), (ascii "user:carol", ascii "3"),
        (ascii "user:dave", ascii "4")] =
      .ok [(some (ascii "carol"), some (ascii "3")), (some (ascii "bob"), some (ascii "2"))] ∧
    ∃ L, (New MemStore.ops (some (ascii "user:"))).scan (some (ascii "b"))
        (some (ascii "d")) 5
        [(ascii "admin:x", ascii "9"), (ascii "user:alice", ascii "1"),
          (ascii "user:bob", ascii "2"), (ascii "user:carol", ascii "3"),
          (ascii "user:dave", ascii "4")] = .ok L ∧
      (New MemStore.ops (some (ascii "user:"))).scanReverse (some (ascii "b"))
        (some (ascii "d")) 5
        [(ascii "admin:x", ascii "9"), (ascii "user:alice", ascii "1"),
          (ascii "user:bob", ascii "2"), (ascii "user:carol", ascii "3"),
          (ascii "user:dave", ascii "4")] = .ok L.reverse ∧
      (L.map (fun kv => kv.1.bytes)).Sorted (· < ·) ∧
      (∀ kv ∈ L, ∃ k v : Bytes, kv = (some k, some v)) :=
  ⟨by decide, by decide,
   scan_ascending_reverse_mirrors (New MemStore.ops (some (ascii "user:"))) MemStore.canon
    (fun c => c.rest) MemStore.ordered MemStore.reverseOrdered (some (ascii "b"))
    (some (ascii "d"))
    [(ascii "admin:x", ascii "9"), (ascii "user:alice", ascii "1"),
      (ascii "user:bob", ascii "2"), (ascii "user:carol", ascii "3"),
      (ascii "user:dave", ascii "4")] 5 (by decide)⟩

/-! ## Range translation -/

/-- A key of the namespace lies in the translated range exactly when its
logical key lies within the logical bounds. -/
theorem inRange_append_iff (p start end_ : Slice) (k : Bytes) :
    inRange (translatedStart p start) (translatedEnd p end_) (p.bytes ++ k) = true ↔
      ((∀ a, start = some a → a ≤ k) ∧ (∀ b, end_ = some b → k < b)) := by
  have h1 : p.bytes ++ start.bytes ≤ p.bytes ++ k ↔ (∀ a, start = some a → a ≤ k) := by
    rw [append_le_append_iff]
    cases start with
    | none => simp [Slice.bytes, List.nil_le]
    | some a => simp [Slice.bytes]
  have h2 : (match translatedEnd p end_ with
      | none => true
      | some b => decide (p.bytes ++ k < b)) = true ↔ (∀ b, end_ = some b → k < b) := by
    cases end_ with
    | some b => simp [translatedEnd, append_lt_append_iff]
    | none =>
      cases hu : cpIncr p with
      | none => simp [translatedEnd, hu]
      | some u =>
        have hu2 : cpIncr (some p.bytes) = some u := by rw [← cpIncr_bytes, hu]
        have : p.bytes ++ k < u :=
          (lt_cpIncr_iff p.bytes u hu2 _).mpr (Or.inr (List.prefix_append _ _))
        simp [translatedEnd, hu, this]
  simp only [inRange, translatedStart, Bool.and_eq_true, decide_eq_true_eq]
  rw [h1, h2]

/-- C7: `Iterator(start, end)` and `ReverseIterator(start, end)` open the parent
iterator over `[translatedStart, translatedEnd)` and wrap it, where
`translatedStart` is `p ++ start` (`p` itself for a nil `start`) and
`translatedEnd` is `p ++ end` for a non-nil `end` and `cpIncr p` for a nil `end`.
Over a parent that keeps the ordered store contract in both directions, the
forward scan returns a list `L` and the reverse scan its reverse, and `L` holds
the pair `(k, v)` exactly when the parent holds `p ++ k -> v`, `start <= k` if
`start` is not nil, and `k < end` if `end` is not nil. -/
theorem iterator_opens_translated_range {σ ι : Type} (s : Store σ ι)
    (entries : σ → List (Bytes × Bytes)) (items : ι → List (Bytes × Bytes))
    (hP : Ordered s.parent entries items) (hR : ReverseOrdered s.parent entries items)
    (start end_ : Slice) (st : σ) (fuel : Nat) (hf : (entries st).length ≤ fuel) :
    (s.Iterator start end_ st =
      match (s.parent.Iterator (translatedStart s.pfx start) (translatedEnd s.pfx end_) st).val
      with
      | .panic m => ⟨.panic m,
          (s.parent.Iterator (translatedStart s.pfx start) (translatedEnd s.pfx end_) st).st⟩
      | .ok iter => ⟨newPrefixIterator s.parent.it s.pfx start end_ iter,
          (s.parent.Iterator (translatedStart s.pfx start) (translatedEnd s.pfx end_) st).st⟩) ∧
    (s.ReverseIterator start end_ st =
      match (s.parent.ReverseIterator (translatedStart s.pfx start)
        (translatedEnd s.pfx end_) st).val with
      | .panic m => ⟨.panic m, (s.parent.ReverseIterator (translatedStart s.pfx start)
          (translatedEnd s.pfx end_) st).st⟩
      | .ok iter => ⟨newPrefixIterator s.parent.it s.pfx start end_ iter,
          (s.parent.ReverseIterator (translatedStart s.pfx start)
            (translatedEnd s.pfx end_) st).st⟩) ∧
    (start = none → translatedStart s.pfx start = some s.pfx.bytes) ∧
    (∀ a, start = some a → translatedStart s.pfx start = some (s.pfx.bytes ++ a)) ∧
    (end_ = none → translatedEnd s.pfx end_ = cpIncr s.pfx) ∧
    (∀ b, end_ = some b → translatedEnd s.pfx end_ = some (s.pfx.bytes ++ b)) ∧
    ∃ L, s.scan start end_ fuel st = .ok L ∧
      s.scanReverse start end_ fuel st = .ok L.reverse ∧
      (∀ kv ∈ L, ∃ k v : Bytes, kv = (some k, some v)) ∧
      (∀ k v : Bytes, (some k, some v) ∈ L ↔
        ((s.pfx.bytes ++ k, v) ∈ entries st ∧
          (∀ a, start = some a → a ≤ k) ∧ (∀ b, end_ = some b → k < b))) := by
  refine ⟨Store.Iterator_eq s start end_ st, Store.ReverseIterator_eq s start end_ st,
    ?_, ?_, ?_, ?_, _, scan_eq s hP start end_ st fuel hf,
    scanReverse_eq s hP hR start end_ st fuel hf, mem_pair_shape s.pfx _, ?_⟩
  · rintro rfl
    simp [translatedStart, Slice.bytes]
  · rintro a rfl
    rfl
  · rintro rfl
    rfl
  · rintro b rfl
    rfl
  · intro k v
    have hall : ∀ kv ∈ (entries st).filter (fun kv => inRange (translatedStart s.pfx start)
        (translatedEnd s.pfx end_) kv.1), HasPrefix (some kv.1) s.pfx = true :=
      fun kv hkv => HasPrefix_of_inRange s.pfx start end_ kv.1 (List.mem_filter.mp hkv).2
    rw [mem_logical_iff s.pfx _ hall k v, List.mem_filter, inRange_append_iff]

/-- In the namespace `user:`, `Iterator("b", nil)` opens the in-memory parent over
`["user:b", "user;")` and yields `bob` and `carol`; `ReverseIterator("b", nil)`
yields them in the opposite order. -/
theorem iterator_opens_translated_range_witness :
    ((New MemStore.ops (some (ascii "user:"))).Iterator (some (ascii "b")) none
      [(ascii "user:alice", ascii "1"), (ascii "user:bob", ascii "2"),
        (ascii "user:carol", ascii "3"), (ascii "user;", ascii "4")]).val =
      .ok { pfx := some (ascii "user:"), start := some (ascii "b"), end_ := none,
            iter := ⟨some (ascii "user:b"), some (ascii "user;"),
              [(ascii "user:bob", ascii "2"), (ascii "user:carol", ascii "3")]⟩,
            valid := true } ∧
    (New MemStore.ops (some (ascii "user:"))).scan (some (ascii "b")) none 4
      [(ascii "user:alice", ascii "1"), (ascii "user:bob", ascii "2"),
        (ascii "user:carol", ascii "3"), (ascii "user;", ascii "4")] =
      .ok [(some (ascii "bob"), some (ascii "2")), (some (ascii "carol"), some (ascii "3"))] ∧
    ∃ L, (New MemStore.ops (some (ascii "user:"))).scan (some (ascii "b")) none 4
        [(ascii "user:alice", ascii "1"), (ascii "user:bob", ascii "2"),
          (ascii "user:carol", ascii "3"), (ascii "user;", ascii "4")] = .ok L ∧
      (New MemStore.ops (some (ascii "user:"))).scanReverse (some (ascii "b")) none 4
        [(ascii "user:alice", ascii "1"), (ascii "user:bob", ascii "2"),
          (ascii "user:carol", ascii "3"), (ascii "user;", ascii "4")] = .ok L.reverse ∧
      (∀ kv ∈ L, ∃ k v : Bytes, kv = (some k, some v)) ∧
      (∀ k v : Bytes, (some k, some v) ∈ L ↔
        ((Slice.bytes (some (ascii "user:")) ++ k, v) ∈
            MemStore.canon [(ascii "user:alice", ascii "1"), (ascii "user:bob", ascii "2"),
              (ascii "user:carol", ascii "3"), (ascii "user;", ascii "4")] ∧
          (∀ a, some (ascii "b") = some a → a ≤ k) ∧
          (∀ b, (none : Slice) = some b → k < b))) :=
  ⟨by decide, by decide,
   (iterator_opens_translated_range (New MemStore.ops (some (ascii "user:"))) MemStore.canon
    (fun c => c.rest) MemStore.ordered MemStore.reverseOrdered (some (ascii "b")) none
    [(ascii "user:alice", ascii "1"), (ascii "user:bob", ascii "2"),
      (ascii "user:carol", ascii "3"), (ascii "user;", ascii "4")] 4
    (by decide)).2.2.2.2.2.2⟩

/-! ## Failures -/

theorem Store.key_some {σ ι : Type} (s : Store σ ι) (k : Bytes) :
    s.key (some k) = .ok (some (s.pfx.bytes ++ k)) := rfl

/-- C8: key translation fails exactly on the nil key. Over a parent whose `Get`,
`Has` and `Delete` return on non-nil keys, and whose `Set` returns on non-nil
keys and values the validity rules accept: `Get`, `Has` and `Delete` of the scoped
store abort if and only if the key is nil; on a non-nil key `k` they are the
parent's call at the key `p ++ k`, which for the zero-length key is `p` itself;
`Set` aborts on the nil key; and whenever one of the four aborts, the parent store
is in the state it was in before the call. -/
theorem key_translation_fails_on_nil_only {σ ι : Type} (V : Types.Validity) (s : Store σ ι)
    (hget : ∀ k st, (s.parent.Get (some k) st).val.isPanic = false)
    (hhas : ∀ k st, (s.parent.Has (some k) st).val.isPanic = false)
    (hdel : ∀ k st, (s.parent.Delete (some k) st).val.isPanic = false)
    (hset : ∀ k v st, V.AssertValidValue v = .ok () →
      (s.parent.Set (some k) v st).val.isPanic = false)
    (key value : Slice) (st : σ) :
    ((s.key key).isPanic = true ↔ key = none) ∧
    ((s.Get key st).val.isPanic = true ↔ key = none) ∧
    ((s.Has key st).val.isPanic = true ↔ key = none) ∧
    ((s.Delete key st).val.isPanic = true ↔ key = none) ∧
    (key = none → (s.Set V key value st).val.isPanic = true) ∧
    (∀ k, key = some k →
      s.key key = .ok (some (s.pfx.bytes ++ k)) ∧
      s.Get key st = s.parent.Get (some (s.pfx.bytes ++ k)) st ∧
      s.Has key st = s.parent.Has (some (s.pfx.bytes ++ k)) st ∧
      s.Delete key st = s.parent.Delete (some (s.pfx.bytes ++ k)) st) ∧
    (s.key (some []) = .ok (some s.pfx.bytes) ∧
      s.Get (some []) st = s.parent.Get (some s.pfx.bytes) st) ∧
    ((s.Get key st).val.isPanic = true → (s.Get key st).st = st) ∧
    ((s.Has key st).val.isPanic = true → (s.Has key st).st = st) ∧
    ((s.Delete key st).val.isPanic = true → (s.Delete key st).st = st) ∧
    ((s.Set V key value st).val.isPanic = true → (s.Set V key value st).st = st) := by
  cases key with
  | none =>
    refine ⟨by simp [Store.key, Outcome.isPanic], by simp [Store.Get, Store.key, Outcome.isPanic],
      by simp [Store.Has, Store.key, Outcome.isPanic],
      by simp [Store.Delete, Store.key, Outcome.isPanic], ?_, ?_, ?_,
      fun _ => rfl, fun _ => rfl, fun _ => rfl, ?_⟩
    · intro _
      unfold Store.Set
      cases V.AssertValidKey none <;> cases V.AssertValidValue value <;> rfl
    · intro k hk
      exact absurd hk (by simp)
    · exact ⟨by simp [Store.key, cloneAppend, Slice.bytes],
        by simp [Store.Get, Store.key, cloneAppend, Slice.bytes]⟩
    · intro _
      unfold Store.Set
      cases V.AssertValidKey none <;> cases V.AssertValidValue value <;> rfl
  | some k =>
    have eg : s.Get (some k) st = s.parent.Get (some (s.pfx.bytes ++ k)) st := rfl
    have eh : s.Has (some k) st = s.parent.Has (some (s.pfx.bytes ++ k)) st := rfl
    have ed : s.Delete (some k) st = s.parent.Delete (some (s.pfx.bytes ++ k)) st := rfl
    refine ⟨by simp [Store.key, Outcome.isPanic], by simp [eg, hget], by simp [eh, hhas],
      by simp [ed, hdel], fun h => absurd h (by simp), ?_, ?_, ?_, ?_, ?_, ?_⟩
    · intro k2 hk2
      cases hk2
      exact ⟨rfl, rfl, rfl, rfl⟩
    · exact ⟨by simp [Store.key, cloneAppend, Slice.bytes],
        by simp [Store.Get, Store.key, cloneAppend, Slice.bytes]⟩
    · intro h
      rw [eg, hget] at h
      exact absurd h (by simp)
    · intro h
      rw [eh, hhas] at h
      exact absurd h (by simp)
    · intro h
      rw [ed, hdel] at h
      exact absurd h (by simp)
    · unfold Store.Set
      cases hk : V.AssertValidKey (some k) with
      | panic m => exact fun _ => rfl
      | ok u =>
        cases hv : V.AssertValidValue value with
        | panic m => exact fun _ => rfl
        | ok u2 =>
          intro h
          have h2 : (s.parent.Set (some (s.pfx.bytes ++ k)) value st).val.isPanic = true := h
          rw [hset _ _ _ hv] at h2
          exact absurd h2 (by simp)

theorem MemStore.set_returns (k : Bytes) (v : Slice) (st : List (Bytes × Bytes))
    (h : MemStore.nonNil.AssertValidValue v = .ok ()) :
    (MemStore.ops.Set (some k) v st).val.isPanic = false := by
  cases v with
  | none => cases h
  | some v => rfl

/-- On the namespace `user:` of an in-memory store holding `user:` and `user:a`:
the calls with the nil key abort and leave the store as it was, and the
zero-length key reads the parent key `user:`. -/
theorem key_translation_fails_on_nil_only_witness :
    ((New MemStore.ops (some (ascii "user:"))).Get none
        [(ascii "user:", ascii "0"), (ascii "user:a", ascii "1")]).val.isPanic = true ∧
    ((New MemStore.ops (some (ascii "user:"))).Set MemStore.nonNil none (some (ascii "2"))
        [(ascii "user:", ascii "0"), (ascii "user:a", ascii "1")]).val.isPanic = true ∧
    ((New MemStore.ops (some (ascii "user:"))).Set MemStore.nonNil none (some (ascii "2"))
        [(ascii "user:", ascii "0"), (ascii "user:a", ascii "1")]).st =
      [(ascii "user:", ascii "0"), (ascii "user:a", ascii "1")] ∧
    (New MemStore.ops (some (ascii "user:"))).Get (some [])
        [(ascii "user:", ascii "0"), (ascii "user:a", ascii "1")] =
      ⟨.ok (some (ascii "0")), [(ascii "user:", ascii "0"), (ascii "user:a", ascii "1")]⟩ ∧
    (((New MemStore.ops (some (ascii "user:"))).Delete none
        [(ascii "user:", ascii "0"), (ascii "user:a", ascii "1")]).val.isPanic = true ↔
      (none : Slice) = none) :=
  ⟨by decide, by decide, by decide, by decide,
   (key_translation_fails_on_nil_only MemStore.nonNil (New MemStore.ops (some (ascii "user:")))
    (fun _ _ => rfl) (fun _ _ => rfl) (fun _ _ => rfl) MemStore.set_returns
    none (some (ascii "2"))
    [(ascii "user:", ascii "0"), (ascii "user:a", ascii "1")]).2.2.2.1⟩

/-- C9: on a scoped iterator whose cached `valid` flag is false, `Next()`, `Key()`
and `Value()` each abort, with their own message, and leave the iterator, the
parent iterator it wraps included, exactly as it was: none of them calls a
method of the parent iterator and none returns normally. -/
theorem exhausted_iterator_methods_abort {ι : Type} (I : Types.Iterator ι)
    (it : prefixIterator ι) (h : it.valid = false) :
    it.Next I = ⟨.panic "prefixIterator invalid, cannot call Next()", it⟩ ∧
    it.Key I = ⟨.panic "prefixIterator invalid, cannot call Key()", it⟩ ∧
    it.Value I = ⟨.panic "prefixIterator invalid, cannot call Value()", it⟩ ∧
    ((it.Next I).val.isPanic = true ∧ (it.Next I).st.iter = it.iter) ∧
    ((it.Key I).val.isPanic = true ∧ (it.Key I).st.iter = it.iter) ∧
    ((it.Value I).val.isPanic = true ∧ (it.Value I).st.iter = it.iter) := by
  have h1 : it.Next I = ⟨.panic "prefixIterator invalid, cannot call Next()", it⟩ := by
    simp [prefixIterator.Next, h]
  have h2 : it.Key I = ⟨.panic "prefixIterator invalid, cannot call Key()", it⟩ := by
    simp [prefixIterator.Key, h]
  have h3 : it.Value I = ⟨.panic "prefixIterator invalid, cannot call Value()", it⟩ := by
    simp [prefixIterator.Value, h]
  refine ⟨h1, h2, h3, ?_, ?_, ?_⟩
  · rw [h1]; exact ⟨rfl, rfl⟩
  · rw [h2]; exact ⟨rfl, rfl⟩
  · rw [h3]; exact ⟨rfl, rfl⟩

/-- The iterator of the namespace `a` over a parent holding only `b -> 1` is
exhausted from the start, with the parent cursor on `b`; `Next`, `Key` and
`Value` abort and the parent cursor stays on `b`. -/
theorem exhausted_iterator_methods_abort_witness :
    newPrefixIterator MemStore.iterOps (some (ascii "a")) none none
        ⟨some (ascii "a"), none, [(ascii "b", ascii "1")]⟩ =
      .ok { pfx := some (ascii "a"), start := none, end_ := none,
            iter := ⟨some (ascii "a"), none, [(ascii "b", ascii "1")]⟩, valid := false } ∧
    (prefixIterator.Next MemStore.iterOps
        { pfx := some (ascii "a"), start := none, end_ := none,
          iter := ⟨some (ascii "a"), none, [(ascii "b", ascii "1")]⟩, valid := false }).val =
      .panic "prefixIterator invalid, cannot call Next()" ∧
    (prefixIterator.Next MemStore.iterOps
        { pfx := some (ascii "a"), start := none, end_ := none,
          iter := ⟨some (ascii "a"), none, [(ascii "b", ascii "1")]⟩, valid := false }).st.iter =
      ⟨some (ascii "a"), none, [(ascii "b", ascii "1")]⟩ :=
  ⟨by decide,
   congrArg Res.val (exhausted_iterator_methods_abort MemStore.iterOps
    { pfx := some (ascii "a"), start := none, end_ := none,
      iter := ⟨some (ascii "a"), none, [(ascii "b", ascii "1")]⟩, valid := false } rfl).1,
   by decide⟩

/-- C10: `Write()` on a scoped store aborts, whatever the parent, the prefix and
the state of the parent, and the parent store is left in the state it was in: no
method of the parent is called. The same holds through the method set of the
store. -/
theorem write_always_aborts {σ ι : Type} (V : Types.Validity) (parent : Types.Store σ ι)
    (pfx : Slice) (st : σ) :
    (New parent pfx).Write st = ⟨.panic "unexpected .Write() on prefix.Store", st⟩ ∧
    ((New parent pfx).Write st).val.isPanic = true ∧
    ((New parent pfx).Write st).st = st ∧
    ((New parent pfx).ops V).Write st = ⟨.panic "unexpected .Write() on prefix.Store", st⟩ :=
  ⟨rfl, rfl, rfl, rfl⟩

/-! ## The frame of a write -/

/-- C11: on a non-nil key `k`, `Set(k, v)` either aborts before any call on the
parent, leaving its state, or is the parent's `Set` at the single key `p ++ k`;
`Delete(k)`, `Get(k)` and `Has(k)` are the parent's call at `p ++ k`. Over a parent
that behaves as a map: after `Set(k, v)` (with `k`, `v` accepted by the validity
rules) and after `Delete(k)`, every parent key other than `p ++ k`, and so every
parent key that does not begin with `p`, maps to what it mapped to before; `Get`
and `Has` leave the map as it is and their result depends on the parent only
through the key `p ++ k`. -/
theorem write_touches_single_parent_key {σ ι : Type} (V : Types.Validity) (s : Store σ ι)
    (view : σ → Bytes → Slice) (hP : MapLike s.parent view) (k v : Bytes) (st : σ)
    (hk : V.AssertValidKey (some k) = .ok ()) (hv : V.AssertValidValue (some v) = .ok ()) :
    (∀ value : Slice, (s.Set V (some k) value st = s.parent.Set (some (s.pfx.bytes ++ k)) value st
      ∨ ((s.Set V (some k) value st).val.isPanic = true ∧ (s.Set V (some k) value st).st = st))) ∧
    s.Set V (some k) (some v) st = s.parent.Set (some (s.pfx.bytes ++ k)) (some v) st ∧
    s.Delete (some k) st = s.parent.Delete (some (s.pfx.bytes ++ k)) st ∧
    s.Get (some k) st = s.parent.Get (some (s.pfx.bytes ++ k)) st ∧
    s.Has (some k) st = s.parent.Has (some (s.pfx.bytes ++ k)) st ∧
    (∀ k2, k2 ≠ s.pfx.bytes ++ k →
      view (s.Set V (some k) (some v) st).st k2 = view st k2 ∧
      view (s.Delete (some k) st).st k2 = view st k2) ∧
    (∀ k2, HasPrefix (some k2) s.pfx = false →
      view (s.Set V (some k) (some v) st).st k2 = view st k2 ∧
      view (s.Delete (some k) st).st k2 = view st k2) ∧
    (view (s.Get (some k) st).st = view st ∧ view (s.Has (some k) st).st = view st) ∧
    (∀ st2, view st2 (s.pfx.bytes ++ k) = view st (s.pfx.bytes ++ k) →
      (s.Get (some k) st2).val = (s.Get (some k) st).val ∧
      (s.Has (some k) st2).val = (s.Has (some k) st).val) := by
  have hset : s.Set V (some k) (some v) st =
      s.parent.Set (some (s.pfx.bytes ++ k)) (some v) st := by
    simp [Store.Set, hk, hv, Store.key, cloneAppend, Slice.bytes]
  have hdel : s.Delete (some k) st = s.parent.Delete (some (s.pfx.bytes ++ k)) st := rfl
  have hget : ∀ st2, s.Get (some k) st2 = s.parent.Get (some (s.pfx.bytes ++ k)) st2 :=
    fun _ => rfl
  have hhas : ∀ st2, s.Has (some k) st2 = s.parent.Has (some (s.pfx.bytes ++ k)) st2 :=
    fun _ => rfl
  have hframe : ∀ k2, k2 ≠ s.pfx.bytes ++ k →
      view (s.Set V (some k) (some v) st).st k2 = view st k2 ∧
      view (s.Delete (some k) st).st k2 = view st k2 := by
    intro k2 hne
    rw [hset, hdel, (hP.set _ _ _).2, (hP.delete _ _).2]
    exact ⟨Function.update_noteq hne _ _, Function.update_noteq hne _ _⟩
  refine ⟨?_, hset, hdel, hget st, hhas st, hframe, ?_, ?_, ?_⟩
  · intro value
    unfold Store.Set
    rw [hk]
    cases hvv : V.AssertValidValue value with
    | panic m => exact Or.inr ⟨rfl, rfl⟩
    | ok u => exact Or.inl rfl
  · intro k2 hk2
    refine hframe k2 ?_
    rintro rfl
    rw [HasPrefix_append] at hk2
    cases hk2
  · rw [hget, hhas]
    exact ⟨(hP.get _ _).2, (hP.has _ _).2⟩
  · intro st2 h2
    rw [hget, hget, hhas, hhas, (hP.get _ _).1, (hP.get _ _).1, (hP.has _ _).1,
      (hP.has _ _).1, h2]
    exact ⟨rfl, rfl⟩

/-- In the namespace `user:` of an in-memory store holding `admin:x`, `user:bob`
and `usez`, `Set("bob", "7")` and `Delete("bob")` leave `admin:x` and `usez` as
they were. -/
theorem write_touches_single_parent_key_witness :
    (New MemStore.ops (some (ascii "user:"))).Set MemStore.nonNil (some (ascii "bob"))
        (some (ascii "7"))
        [(ascii "admin:x", ascii "9"), (ascii "user:bob", ascii "2"), (ascii "usez", ascii "3")] =
      ⟨.ok (), [(ascii "admin:x", ascii "9"), (ascii "user:bob", ascii "7"),
        (ascii "usez", ascii "3")]⟩ ∧
    (New MemStore.ops (some (ascii "user:"))).Delete (some (ascii "bob"))
        [(ascii "admin:x", ascii "9"), (ascii "user:bob", ascii "2"), (ascii "usez", ascii "3")] =
      ⟨.ok (), [(ascii "admin:x", ascii "9"), (ascii "usez", ascii "3")]⟩ ∧
    (∀ k2, k2 ≠ Slice.bytes (some (ascii "user:")) ++ ascii "bob" →
      MemStore.lookup k2 ((New MemStore.ops (some (ascii "user:"))).Set MemStore.nonNil
        (some (ascii "bob")) (some (ascii "7"))
        [(ascii "admin:x", ascii "9"), (ascii "user:bob", ascii "2"),
          (ascii "usez", ascii "3")]).st =
        MemStore.lookup k2
          [(ascii "admin:x", ascii "9"), (ascii "user:bob", ascii "2"),
            (ascii "usez", ascii "3")] ∧
      MemStore.lookup k2 ((New MemStore.ops (some (ascii "user:"))).Delete
        (some (ascii "bob"))
        [(ascii "admin:x", ascii "9"), (ascii "user:bob", ascii "2"),
          (ascii "usez", ascii "3")]).st =
        MemStore.lookup k2
          [(ascii "admin:x", ascii "9"), (ascii "user:bob", ascii "2"),
            (ascii "usez", ascii "3")]) :=
  ⟨by decide, by decide,
   (write_touches_single_parent_key MemStore.nonNil (New MemStore.ops (some (ascii "user:")))
    (fun st k => MemStore.lookup k st) MemStore.mapLike (ascii "bob") (ascii "7")
    [(ascii "admin:x", ascii "9"), (ascii "user:bob", ascii "2"), (ascii "usez", ascii "3")]
    rfl rfl).2.2.2.2.2.1⟩

/-! ## The cached flag of a scoped iterator -/

/-- No call turns the cached flag on. -/
theorem prefixIterator.valid_of_after {ι : Type} (I : Types.Iterator ι) (it : prefixIterator ι)
    (c : Call) (h : (it.after I c).valid = true) : it.valid = true := by
  cases hv : it.valid with
  | true => rfl
  | false =>
    have h1 : it.Next I = ⟨.panic "prefixIterator invalid, cannot call Next()", it⟩ := by
      simp [prefixIterator.Next, hv]
    have h2 : it.Key I = ⟨.panic "prefixIterator invalid, cannot call Key()", it⟩ := by
      simp [prefixIterator.Key, hv]
    have h3 : it.Value I = ⟨.panic "prefixIterator invalid, cannot call Value()", it⟩ := by
      simp [prefixIterator.Value, hv]
    cases c with
    | Domain => exact hv.symm.trans h
    | Valid => exact hv.symm.trans h
    | Next =>
      simp only [prefixIterator.after, h1] at h
      exact hv.symm.trans h
    | Key =>
      simp only [prefixIterator.after, h2] at h
      exact hv.symm.trans h
    | Value =>
      simp only [prefixIterator.after, h3] at h
      exact hv.symm.trans h
    | Close => exact hv.symm.trans h

theorem prefixIterator.afterAll_valid_false {ι : Type} (I : Types.Iterator ι)
    (calls : List Call) :
    ∀ it : prefixIterator ι, it.valid = false → (it.afterAll I calls).valid = false := by
  induction calls with
  | nil => exact fun _ h => h
  | cons c cs ih =>
    intro it h
    refine ih (it.after I c) ?_
    cases h2 : (it.after I c).valid with
    | false => rfl
    | true => rw [prefixIterator.valid_of_after I it c h2] at h; cases h

/-- C12: once the cached `valid` flag of a scoped iterator is false, it is false
after every sequence of `Domain`, `Valid`, `Next`, `Key`, `Value` and `Close`
calls (aborted calls included), and `Valid()` returns false after every such
sequence. For every iterator and every call, the flag is true after the call
only if it was true before: `Next` never sets it to true. -/
theorem valid_flag_never_returns {ι : Type} (I : Types.Iterator ι) (it : prefixIterator ι)
    (calls : List Call) (h : it.valid = false) :
    (it.afterAll I calls).valid = false ∧
    (it.afterAll I calls).Valid I = false ∧
    (∀ (it2 : prefixIterator ι) (c : Call), (it2.after I c).valid = true → it2.valid = true) ∧
    (∀ it2 : prefixIterator ι, (it2.Next I).st.valid = true → it2.valid = true) := by
  have h1 := prefixIterator.afterAll_valid_false I calls it h
  refine ⟨h1, by simp [prefixIterator.Valid, h1], prefixIterator.valid_of_after I, ?_⟩
  intro it2 h2
  exact prefixIterator.valid_of_after I it2 .Next h2

/-- A scoped iterator of the namespace `a` that is exhausted while its parent
cursor still has the entry `a2` ahead: the flag stays false through further
calls, `Next` and `Close` among them, and `Valid()` returns false. -/
theorem valid_flag_never_returns_witness :
    (prefixIterator.afterAll MemStore.iterOps
      { pfx := some (ascii "a"), start := none, end_ := none,
        iter := ⟨none, none, [(ascii "b", ascii "1"), (ascii "a2", ascii "2")]⟩,
        valid := false }
      [.Next, .Close, .Key, .Value, .Valid, .Domain, .Next]).valid = false ∧
    prefixIterator.Valid MemStore.iterOps
      (prefixIterator.afterAll MemStore.iterOps
        { pfx := some (ascii "a"), start := none, end_ := none,
          iter := ⟨none, none, [(ascii "b", ascii "1"), (ascii "a2", ascii "2")]⟩,
          valid := false }
        [.Next, .Close, .Key, .Value, .Valid, .Domain, .Next]) = false :=
  ⟨(valid_flag_never_returns MemStore.iterOps
      { pfx := some (ascii "a"), start := none, end_ := none,
        iter := ⟨none, none, [(ascii "b", ascii "1"), (ascii "a2", ascii "2")]⟩,
        valid := false }
      [.Next, .Close, .Key, .Value, .Valid, .Domain, .Next] rfl).1,
   by decide⟩

/-! ## The key of a valid scoped iterator -/

/-- What holds of every reachable state: the prefix is the one given at
construction, and while the cached flag is true the parent iterator is valid
and its current key begins with the prefix. -/
theorem reachable_inv {ι : Type} (I : Types.Iterator ι) (hI : KeySteady I)
    (pfx start end_ : Slice) (parent : ι) (it : prefixIterator ι)
    (hr : Reachable I pfx start end_ parent it) :
    it.pfx = pfx ∧ (it.valid = true → I.Valid it.iter = true ∧
      ∃ key, (I.Key it.iter).val = .ok key ∧ HasPrefix key pfx = true) := by
  induction hr with
  | init it h =>
    unfold newPrefixIterator at h
    cases hv : I.Valid parent with
    | false =>
      simp only [hv, Bool.false_eq_true, if_false, Outcome.ok.injEq] at h
      subst h
      exact ⟨rfl, fun h2 => by cases h2⟩
    | true =>
      simp only [hv, if_true] at h
      cases hk : (I.Key parent).val with
      | panic m => simp [hk] at h
      | ok key =>
        simp only [hk, Outcome.ok.injEq] at h
        subst h
        refine ⟨rfl, fun h2 => ?_⟩
        obtain ⟨h3, h4⟩ := hI.key parent key hv hk
        exact ⟨h3, key, h4, h2⟩
  | next it _ hn ih =>
    obtain ⟨ih1, ih2⟩ := ih
    cases hv : it.valid with
    | false => simp [prefixIterator.Next, hv] at hn
    | true =>
      cases hnx : (I.Next it.iter).val with
      | panic m => simp [prefixIterator.Next, hv, hnx] at hn
      | ok u =>
        cases hv2 : I.Valid (I.Next it.iter).st with
        | false =>
          have hN : it.Next I =
              ⟨.ok (), { it with iter := (I.Next it.iter).st, valid := false }⟩ := by
            simp [prefixIterator.Next, hv, hnx, hv2]
          rw [hN]
          exact ⟨ih1, fun h2 => by cases h2⟩
        | true =>
          cases hk : (I.Key (I.Next it.iter).st).val with
          | panic m => simp [prefixIterator.Next, hv, hnx, hv2, hk] at hn
          | ok key =>
            cases hp : HasPrefix key it.pfx with
            | false =>
              have hN : it.Next I = ⟨.ok (),
                  { it with iter := (I.Key (I.Next it.iter).st).st, valid := false }⟩ := by
                simp [prefixIterator.Next, hv, hnx, hv2, hk, hp]
              rw [hN]
              exact ⟨ih1, fun h2 => by cases h2⟩
            | true =>
              have hN : it.Next I = ⟨.ok (),
                  { it with iter := (I.Key (I.Next it.iter).st).st }⟩ := by
                simp [prefixIterator.Next, hv, hnx, hv2, hk, hp]
              rw [hN]
              refine ⟨ih1, fun _ => ?_⟩
              obtain ⟨h3, h4⟩ := hI.key _ key hv2 hk
              exact ⟨h3, key, h4, by rw [← ih1]; exact hp⟩
  | key it _ hn ih =>
    obtain ⟨ih1, ih2⟩ := ih
    cases hv : it.valid with
    | false => simp [prefixIterator.Key, hv, Outcome.isPanic] at hn
    | true =>
      obtain ⟨h1, key, h2, h3⟩ := ih2 hv
      have hN : (it.Key I).st = { it with iter := (I.Key it.iter).st } := by
        simp [prefixIterator.Key, hv, h2]
      rw [hN]
      refine ⟨ih1, fun _ => ?_⟩
      obtain ⟨h4, h5⟩ := hI.key _ key h1 h2
      exact ⟨h4, key, h5, h3⟩
  | value it _ hn ih =>
    obtain ⟨ih1, ih2⟩ := ih
    cases hv : it.valid with
    | false => simp [prefixIterator.Value, hv, Outcome.isPanic] at hn
    | true =>
      obtain ⟨h1, key, h2, h3⟩ := ih2 hv
      have hN : (it.Value I).st = { it with iter := (I.Value it.iter).st } := by
        simp [prefixIterator.Value, hv]
      rw [hN]
      refine ⟨ih1, fun _ => ?_⟩
      obtain ⟨h4, h5⟩ := hI.value _ key h1 h2
      exact ⟨h4, key, h5, h3⟩

/-- C13: over a parent iterator whose current key only changes on `Next`, in
every state of a scoped iterator reachable from `newPrefixIterator` by calls of
`Next` (and of `Key` and `Value`) that return, if the cached `valid` flag is true
then the parent iterator is valid, its current key begins with the prefix,
`stripPrefix` returns on it, and `Key()` returns the parent key without its
leading prefix bytes: the abort of `stripPrefix` is not reached. -/
theorem key_abort_unreachable {ι : Type} (I : Types.Iterator ι) (hI : KeySteady I)
    (pfx start end_ : Slice) (parent : ι) (it : prefixIterator ι)
    (hr : Reachable I pfx start end_ parent it) (hv : it.valid = true) :
    I.Valid it.iter = true ∧
    ∃ key, (I.Key it.iter).val = .ok key ∧ HasPrefix key pfx = true ∧
      stripPrefix key it.pfx = .ok (key.map (fun bs => bs.drop pfx.bytes.length)) ∧
      (it.Key I).val = .ok (key.map (fun bs => bs.drop pfx.bytes.length)) := by
  obtain ⟨h1, h2⟩ := reachable_inv I hI pfx start end_ parent it hr
  obtain ⟨h3, key, h4, h5⟩ := h2 hv
  have h6 := stripPrefix_of_HasPrefix key pfx h5
  refine ⟨h3, key, h4, h5, by rw [h1]; exact h6, ?_⟩
  simp [prefixIterator.Key, hv, h4, h1, h6]

theorem MemStore.keySteady : KeySteady MemStore.iterOps where
  key := by
    intro c k hv hk
    have hst : (MemStore.iterOps.Key c).st = c := by
      simp only [MemStore.iterOps]
      cases c.rest <;> rfl
    rw [hst]
    exact ⟨hv, hk⟩
  value := by
    intro c k hv hk
    have hst : (MemStore.iterOps.Value c).st = c := by
      simp only [MemStore.iterOps]
      cases c.rest <;> rfl
    rw [hst]
    exact ⟨hv, hk⟩

/-- The iterator of the namespace `a` over the entries `a1`, `a2`, `b`, after one
`Next`: it is valid, the parent stands on `a2`, and `Key()` returns `2`. -/
theorem key_abort_unreachable_witness :
    MemStore.iterOps.Valid
      ⟨none, none, [(ascii "a2", ascii "y"), (ascii "b", ascii "z")]⟩ = true ∧
    ∃ key, (MemStore.iterOps.Key
        ⟨none, none, [(ascii "a2", ascii "y"), (ascii "b", ascii "z")]⟩).val = .ok key ∧
      HasPrefix key (some (ascii "a")) = true ∧
      stripPrefix key (some (ascii "a")) =
        .ok (key.map (fun bs => bs.drop (Slice.bytes (some (ascii "a"))).length)) ∧
      (prefixIterator.Key MemStore.iterOps
        { pfx := some (ascii "a"), start := none, end_ := none,
          iter := ⟨none, none, [(ascii "a2", ascii "y"), (ascii "b", ascii "z")]⟩,
          valid := true }).val =
        .ok (key.map (fun bs => bs.drop (Slice.bytes (some (ascii "a"))).length)) :=
  key_abort_unreachable MemStore.iterOps MemStore.keySteady (some (ascii "a")) none none
    ⟨none, none, [(ascii "a1", ascii "x"), (ascii "a2", ascii "y"), (ascii "b", ascii "z")]⟩
    { pfx := some (ascii "a"), start := none, end_ := none,
      iter := ⟨none, none, [(ascii "a2", ascii "y"), (ascii "b", ascii "z")]⟩, valid := true }
    (Eq.mp
      (congrArg (Reachable MemStore.iterOps (some (ascii "a")) none none
        ⟨none, none, [(ascii "a1", ascii "x"), (ascii "a2", ascii "y"), (ascii "b", ascii "z")]⟩)
        (by decide :
          (prefixIterator.Next MemStore.iterOps
            { pfx := some (ascii "a"), start := none, end_ := none,
              iter := ⟨none, none,
                [(ascii "a1", ascii "x"), (ascii "a2", ascii "y"), (ascii "b", ascii "z")]⟩,
              valid := true }).st =
          { pfx := some (ascii "a"), start := none, end_ := none,
            iter := ⟨none, none, [(ascii "a2", ascii "y"), (ascii "b", ascii "z")]⟩,
            valid := true }))
      (Reachable.next
        { pfx := some (ascii "a"), start := none, end_ := none,
          iter := ⟨none, none,
            [(ascii "a1", ascii "x"), (ascii "a2", ascii "y"), (ascii "b", ascii "z")]⟩,
          valid := true }
        (Reachable.init _ (by decide)) (by decide)))
    rfl

/-! ## Termination of a scan -/

theorem steps_of_not_valid {ι : Type} (I : Types.Iterator ι) (n : Nat) (c : ι)
    (h : I.Valid c = false) : I.steps n c = some 0 := by
  cases n <;> simp [Types.Iterator.steps, h]

theorem steps_step {ι : Type} (I : Types.Iterator ι) (n m : Nat) (c : ι)
    (hv : I.Valid c = true) (hn : (I.Next c).val = .ok ())
    (hrest : I.steps n (I.Next c).st = some m) : I.steps (n + 1) c = some (m + 1) := by
  simp [Types.Iterator.steps, hv, hn, hrest]

/-- The loop `while Valid() { Next() }` over a scoped iterator makes one `Next`
call for each entry of the parent cursor up to the first one whose key does not
begin with the prefix. -/
theorem steps_prefixIterator {ι : Type} {I : Types.Iterator ι}
    {items : ι → List (Bytes × Bytes)} (h : IterLike I items) :
    ∀ (L : List (Bytes × Bytes)) (n : Nat) (it : prefixIterator ι),
      items it.iter = L → L.length ≤ n → it.valid = headUnder it.pfx L →
      (prefixIterator.ops I).steps n it =
        some (L.takeWhile (fun kv => HasPrefix (some kv.1) it.pfx)).length := by
  intro L
  induction L with
  | nil =>
    intro n it _ _ hv
    have : (prefixIterator.ops I).Valid it = false := by
      simp [prefixIterator.ops, prefixIterator.Valid, hv, headUnder]
    rw [steps_of_not_valid _ n it this]
    rfl
  | cons e rest ih =>
    intro n it hi hn hv
    by_cases hp : HasPrefix (some e.1) it.pfx = true
    · have hv2 : it.valid = true := by rw [hv]; exact hp
      obtain ⟨m, rfl⟩ : ∃ m, n = m + 1 := ⟨n - 1, by simp at hn; omega⟩
      obtain ⟨n1, n2, n3, n4⟩ := prefixIterator.Next_of_items h it e rest hv2 hi
      have hvalid : (prefixIterator.ops I).Valid it = true := by
        simp [prefixIterator.ops, prefixIterator.Valid, hv2, h.valid, hi]
      have hrec := ih m (it.Next I).st n3 (by simp at hn; omega) (by rw [n4, n2])
      rw [n2] at hrec
      rw [steps_step (prefixIterator.ops I) m _ it hvalid n1 hrec]
      simp [List.takeWhile_cons, hp]
    · have hv2 : it.valid = false := by rw [hv]; simpa [headUnder] using hp
      have : (prefixIterator.ops I).Valid it = false := by
        simp [prefixIterator.ops, prefixIterator.Valid, hv2]
      rw [steps_of_not_valid _ n it this]
      simp [List.takeWhile_cons, hp]

/-- C14: for a prefix that is empty or holds only `0xFF` bytes, `Iterator(start, nil)`
hands the parent a nil (unbounded) end. Over a parent iterator that is a cursor
over a finite list of remaining entries, the scoped iterator is built, and the
loop `while Valid() { Next() }` over it stops: given fuel for the remaining
entries of the parent iterator, it makes `n` calls of `Next`, with `n` at most the
number of those entries, and the draining loop returns as well. -/
theorem unbounded_end_scan_terminates {σ ι : Type} (s : Store σ ι)
    (items : ι → List (Bytes × Bytes)) (hI : IterLike s.parent.it items)
    (hp : s.pfx.bytes = [] ∨ ∀ b ∈ s.pfx.bytes, b = 255) (start : Slice) (st : σ) (c : ι)
    (hc : (s.parent.Iterator (translatedStart s.pfx start) none st).val = .ok c) :
    cpIncr s.pfx = none ∧ translatedEnd s.pfx none = none ∧
    ∃ it, s.Iterator start none st =
        ⟨.ok it, (s.parent.Iterator (translatedStart s.pfx start) none st).st⟩ ∧
      items it.iter = items c ∧
      ∃ n, n ≤ (items c).length ∧
        ∀ fuel, (items c).length ≤ fuel →
          (prefixIterator.ops s.parent.it).steps fuel it = some n ∧
          ∃ L, (prefixIterator.ops s.parent.it).drain fuel it = .ok L ∧ L.length = n := by
  have hnil : cpIncr s.pfx = none := by
    rw [cpIncr_eq_none_iff]
    rcases hp with h | h
    · simp [h]
    · exact h
  have hte : translatedEnd s.pfx none = none := hnil
  obtain ⟨it, hit, hpfx, _, _, hitems, hvalid⟩ :=
    newPrefixIterator_of_items hI s.pfx start none c
  refine ⟨hnil, hte, it, ?_, hitems,
    ((items c).takeWhile (fun kv => HasPrefix (some kv.1) s.pfx)).length, ?_, ?_⟩
  · rw [Store.Iterator_eq, hte]
    simp only [hc, hit]
  · exact (List.takeWhile_sublist
      (fun kv : Bytes × Bytes => HasPrefix (some kv.1) s.pfx)).length_le
  · intro fuel hf
    refine ⟨?_, _, drain_prefixIterator hI (items c) fuel it hitems hf
      (by rw [hvalid, hpfx]), ?_⟩
    · rw [steps_prefixIterator hI (items c) fuel it hitems hf (by rw [hvalid, hpfx]), hpfx]
    · rw [List.length_map, hpfx]

/-- The namespace of the prefix `0xFF` over an in-memory store holding the keys
`0x07`, `0xFF 0x01` and `0xFF 0xFF`: the end handed to the parent is nil, the
parent cursor has two entries left, and the loop stops after two `Next` calls. -/
theorem unbounded_end_scan_terminates_witness :
    ((New MemStore.ops (some [255])).Iterator none none
        [([7], ascii "3"), ([255, 1], ascii "1"), ([255, 255], ascii "2")]).val =
      .ok { pfx := some [255], start := none, end_ := none,
            iter := ⟨some [255], none, [([255, 1], ascii "1"), ([255, 255], ascii "2")]⟩,
            valid := true } ∧
    (prefixIterator.ops MemStore.iterOps).steps 2
      { pfx := some [255], start := none, end_ := none,
        iter := ⟨some [255], none, [([255, 1], ascii "1"), ([255, 255], ascii "2")]⟩,
        valid := true } = some 2 ∧
    cpIncr (some [255]) = none ∧ translatedEnd (some [255]) none = none ∧
    ∃ it, (New MemStore.ops (some [255])).Iterator none none
        [([7], ascii "3"), ([255, 1], ascii "1"), ([255, 255], ascii "2")] =
        ⟨.ok it, (MemStore.ops.Iterator (translatedStart (some [255]) none) none
          [([7], ascii "3"), ([255, 1], ascii "1"), ([255, 255], ascii "2")]).st⟩ ∧
      it.iter.rest = [([255, 1], ascii "1"), ([255, 255], ascii "2")] ∧
      ∃ n, n ≤ [([255, 1], ascii "1"), ([255, 255], ascii "2")].length ∧
        ∀ fuel, [([255, 1], ascii "1"), ([255, 255], ascii "2")].length ≤ fuel →
          (prefixIterator.ops MemStore.iterOps).steps fuel it = some n ∧
          ∃ L, (prefixIterator.ops MemStore.iterOps).drain fuel it = .ok L ∧ L.length = n :=
  ⟨by decide, by decide,
   unbounded_end_scan_terminates (New MemStore.ops (some [255])) (fun c => c.rest)
    MemStore.iterLike (Or.inr (by simp [Slice.bytes, New])) none
    [([7], ascii "3"), ([255, 1], ascii "1"), ([255, 255], ascii "2")]
    ⟨some [255], none, [([255, 1], ascii "1"), ([255, 255], ascii "2")]⟩
    (by decide)⟩

/-! ## The translated range bounds the scan -/

/-- C15: with `translatedStart = p ++ start` and `translatedEnd = p ++ end` for a
non-nil `end`, `cpIncr p` for a nil one, every byte string `x` with
`translatedStart <= x` and (`translatedEnd` nil or `x < translatedEnd`) begins with
`p`, whatever `start` and `end` are. So, over a parent that keeps the ordered
store contract, the prefix check of the iterator cuts no scan short: the forward
scan yields one pair for each parent entry inside the translated range, and the
reverse scan the same pairs in the opposite order. -/
theorem translated_range_within_namespace {σ ι : Type} (s : Store σ ι)
    (entries : σ → List (Bytes × Bytes)) (items : ι → List (Bytes × Bytes))
    (hP : Ordered s.parent entries items) (hR : ReverseOrdered s.parent entries items)
    (start end_ : Slice) (st : σ) (fuel : Nat) (hf : (entries st).length ≤ fuel) :
    translatedStart s.pfx start = some (s.pfx.bytes ++ start.bytes) ∧
    (end_ = none → translatedEnd s.pfx end_ = cpIncr s.pfx) ∧
    (∀ b, end_ = some b → translatedEnd s.pfx end_ = some (s.pfx.bytes ++ b)) ∧
    (∀ x ts : Bytes, translatedStart s.pfx start = some ts → ts ≤ x →
      (translatedEnd s.pfx end_ = none ∨
        ∃ te, translatedEnd s.pfx end_ = some te ∧ x < te) →
      HasPrefix (some x) s.pfx = true) ∧
    ∃ L, s.scan start end_ fuel st = .ok L ∧
      s.scanReverse start end_ fuel st = .ok L.reverse ∧
      L = ((entries st).filter (fun kv => inRange (translatedStart s.pfx start)
        (translatedEnd s.pfx end_) kv.1)).map (logical s.pfx) ∧
      L.length = ((entries st).filter (fun kv => inRange (translatedStart s.pfx start)
        (translatedEnd s.pfx end_) kv.1)).length := by
  refine ⟨rfl, ?_, ?_, ?_, _, scan_eq s hP start end_ st fuel hf,
    scanReverse_eq s hP hR start end_ st fuel hf, rfl, List.length_map _ _⟩
  · rintro rfl
    rfl
  · rintro b rfl
    rfl
  · intro x ts hts hle hte
    refine HasPrefix_of_inRange s.pfx start end_ x ?_
    rw [hts]
    rcases hte with h | ⟨te, h, hlt⟩
    · simp [inRange, h, hle]
    · simp [inRange, h, hle, hlt]

/-- In the namespace `ab`, the scan from `"b"` with no upper bound reads the
parent over `["abb", "ac")`: both parent entries of that range are yielded. -/
theorem translated_range_within_namespace_witness :
    (New MemStore.ops (some (ascii "ab"))).scan (some (ascii "b")) none 4
      [(ascii "aa", ascii "0"), (ascii "aba", ascii "1"), (ascii "abb", ascii "2"),
        (ascii "abc", ascii "3"), (ascii "ac", ascii "4")] =
      .ok [(some (ascii "b"), some (ascii "2")), (some (ascii "c"), some (ascii "3"))] ∧
    (∀ x ts : Bytes, translatedStart (some (ascii "ab")) (some (ascii "b")) = some ts →
      ts ≤ x →
      (translatedEnd (some (ascii "ab")) none = none ∨
        ∃ te, translatedEnd (some (ascii "ab")) none = some te ∧ x < te) →
      HasPrefix (some x) (some (ascii "ab")) = true) :=
  ⟨by decide,
   (translated_range_within_namespace (New MemStore.ops (some (ascii "ab"))) MemStore.canon
    (fun c => c.rest) MemStore.ordered MemStore.reverseOrdered (some (ascii "b")) none
    [(ascii "aa", ascii "0"), (ascii "aba", ascii "1"), (ascii "abb", ascii "2"),
      (ascii "abc", ascii "3"), (ascii "ac", ascii "4")] 5 (by decide)).2.2.2.1⟩

/-! ## The two states of a scoped iterator -/

/-- C16: the scoped iterator follows the two-state machine. At construction over
an invalid parent iterator it is exhausted and the parent iterator is as it was,
`Key` not having been called on it; over a valid parent iterator whose `Key`
returns `key` it is active exactly when `key` begins with the prefix. `Valid()` is
the conjunction of the cached flag and the parent's `Valid()`. `Next()` on an
active iterator calls the parent's `Next` once; when that returns, the iterator is
exhausted if the parent is then invalid, and otherwise it is active exactly when
the parent's key begins with the prefix. Over a cursor-like parent iterator
standing on `e :: rest`, the parent is left on `rest` and the iterator is active
exactly when `rest` starts with a key beginning with the prefix. -/
theorem iterator_follows_state_machine {ι : Type} (I : Types.Iterator ι)
    (pfx start end_ : Slice) (parent : ι) :
    (I.Valid parent = false →
      newPrefixIterator I pfx start end_ parent =
        .ok { pfx := pfx, start := start, end_ := end_, iter := parent, valid := false }) ∧
    (∀ key, I.Valid parent = true → (I.Key parent).val = .ok key →
      newPrefixIterator I pfx start end_ parent =
        .ok { pfx := pfx, start := start, end_ := end_, iter := (I.Key parent).st,
              valid := HasPrefix key pfx }) ∧
    (∀ it : prefixIterator ι, it.Valid I = (it.valid && I.Valid it.iter)) ∧
    (∀ it : prefixIterator ι, it.valid = true → (I.Next it.iter).val = .ok () →
      (I.Valid (I.Next it.iter).st = false →
        it.Next I = ⟨.ok (), { it with iter := (I.Next it.iter).st, valid := false }⟩) ∧
      (∀ key, I.Valid (I.Next it.iter).st = true →
        (I.Key (I.Next it.iter).st).val = .ok key →
        it.Next I =
          ⟨.ok (),
            { it with iter := (I.Key (I.Next it.iter).st).st, valid := HasPrefix key it.pfx }⟩) ∧
      (∀ (items : ι → List (Bytes × Bytes)) (e : Bytes × Bytes)
        (rest : List (Bytes × Bytes)),
        IterLike I items → items it.iter = e :: rest →
        items (it.Next I).st.iter = rest ∧
        (it.Next I).st.valid = headUnder it.pfx rest)) := by
  refine ⟨?_, ?_, fun _ => rfl, ?_⟩
  · intro h
    simp [newPrefixIterator, h]
  · intro key h hk
    simp [newPrefixIterator, h, hk]
  · intro it hv hn
    refine ⟨?_, ?_, ?_⟩
    · intro h
      simp [prefixIterator.Next, hv, hn, h]
    · intro key h hk
      cases hp : HasPrefix key it.pfx with
      | false => simp [prefixIterator.Next, hv, hn, h, hk, hp]
      | true =>
        have : it.Next I = ⟨.ok (), { it with iter := (I.Key (I.Next it.iter).st).st }⟩ := by
          simp [prefixIterator.Next, hv, hn, h, hk, hp]
        rw [this, ← hv]
    · intro items e rest hI hi
      obtain ⟨_, _, h3, h4⟩ := prefixIterator.Next_of_items hI it e rest hv hi
      exact ⟨h3, h4⟩

/-- The iterator of the namespace `a` over the parent entries `a1`, `b`: built
active; after one `Next` the parent stands on `b` and the iterator is exhausted. -/
theorem iterator_follows_state_machine_witness :
    newPrefixIterator MemStore.iterOps (some (ascii "a")) none none
        ⟨none, none, [(ascii "a1", ascii "x"), (ascii "b", ascii "y")]⟩ =
      .ok { pfx := some (ascii "a"), start := none, end_ := none,
            iter := ⟨none, none, [(ascii "a1", ascii "x"), (ascii "b", ascii "y")]⟩,
            valid := true } ∧
    newPrefixIterator MemStore.iterOps (some (ascii "a")) none none ⟨none, none, []⟩ =
      .ok { pfx := some (ascii "a"), start := none, end_ := none,
            iter := ⟨none, none, []⟩, valid := false } ∧
    prefixIterator.Next MemStore.iterOps
        { pfx := some (ascii "a"), start := none, end_ := none,
          iter := ⟨none, none, [(ascii "a1", ascii "x"), (ascii "b", ascii "y")]⟩,
          valid := true } =
      ⟨.ok (), { pfx := some (ascii "a"), start := none, end_ := none,
                 iter := ⟨none, none, [(ascii "b", ascii "y")]⟩, valid := false }⟩ ∧
    (MemStore.iterOps.Valid ⟨none, none, [(ascii "b", ascii "y")]⟩ = true →
      (MemStore.iterOps.Key ⟨none, none, [(ascii "b", ascii "y")]⟩).val =
        .ok (some (ascii "b")) →
      prefixIterator.Next MemStore.iterOps
          { pfx := some (ascii "a"), start := none, end_ := none,
            iter := ⟨none, none, [(ascii "a1", ascii "x"), (ascii "b", ascii "y")]⟩,
            valid := true } =
        ⟨.ok (), { pfx := some (ascii "a"), start := none, end_ := none,
                   iter := ⟨none, none, [(ascii "b", ascii "y")]⟩,
                   valid := HasPrefix (some (ascii "b")) (some (ascii "a")) }⟩) :=
  ⟨by decide, by decide, by decide,
   ((iterator_follows_state_machine MemStore.iterOps (some (ascii "a")) none none
    ⟨none, none, [(ascii "a1", ascii "x"), (ascii "b", ascii "y")]⟩).2.2.2
    { pfx := some (ascii "a"), start := none, end_ := none,
      iter := ⟨none, none, [(ascii "a1", ascii "x"), (ascii "b", ascii "y")]⟩,
      valid := true } rfl rfl).2.1 (some (ascii "b"))⟩

/-! ## The two descriptions of the in-memory store agree -/

theorem MemStore.lookup_insertOrd (k v k2 : Bytes) (l : List (Bytes × Bytes)) :
    MemStore.lookup k2 (MemStore.insertOrd k v l) =
      if k = k2 then some v else MemStore.lookup k2 l := by
  by_cases h : k = k2
  · subst h
    rw [if_pos rfl, MemStore.lookup_insertOrd_self]
  · rw [if_neg h, MemStore.lookup_insertOrd_other k v k2 (fun h2 => h h2.symm)]

theorem MemStore.lookup_canon (k : Bytes) (st : List (Bytes × Bytes)) :
    MemStore.lookup k (MemStore.canon st) = MemStore.lookup k st := by
  induction st with
  | nil => rfl
  | cons e rest ih =>
    show MemStore.lookup k (MemStore.insertOrd e.1 e.2 (MemStore.canon rest)) = _
    rw [MemStore.lookup_insertOrd, ih, MemStore.lookup]

theorem MemStore.mem_iff_lookup (l : List (Bytes × Bytes))
    (hs : (l.map Prod.fst).Sorted (· < ·)) (k v : Bytes) :
    (k, v) ∈ l ↔ MemStore.lookup k l = some v := by
  induction l with
  | nil => simp [MemStore.lookup]
  | cons e rest ih =>
    rw [List.map_cons, List.sorted_cons] at hs
    rw [List.mem_cons]
    by_cases h : e.1 = k
    · rw [MemStore.lookup_cons_eq k e rest h]
      constructor
      · rintro (h2 | h2)
        · rw [← h2]
        · have hlt : e.1 < k := hs.1 k (List.mem_map.mpr ⟨(k, v), h2, rfl⟩)
          exact absurd h (ne_of_lt hlt)
      · intro h2
        refine Or.inl ?_
        simp only [Option.some.injEq] at h2
        exact Prod.ext h.symm h2.symm
    · rw [MemStore.lookup_cons_ne k e rest h, ← ih hs.2]
      constructor
      · rintro (h2 | h2)
        · exact absurd (by rw [← h2]) h
        · exact h2
      · exact fun h2 => Or.inr h2

/-- The entry list of the in-memory store and the map it behaves as agree. -/
theorem MemStore.consistent :
    Consistent (fun st k => MemStore.lookup k st) MemStore.canon where
  mem_iff := by
    intro st k v
    rw [MemStore.mem_iff_lookup _ (MemStore.sorted_canon st), MemStore.lookup_canon]

/-! ## Round trip of the key translation -/

/-- A scan with nil bounds over an ordered parent: the parent entries of
the namespace under their logical keys. -/
theorem scan_nil_nil_eq {σ ι : Type} (s : Store σ ι) {entries : σ → List (Bytes × Bytes)}
    {items : ι → List (Bytes × Bytes)} (hP : Ordered s.parent entries items)
    (st : σ) (fuel : Nat) (hf : (entries st).length ≤ fuel) :
    s.scan none none fuel st =
      .ok (((entries st).filter (fun kv => HasPrefix (some kv.1) s.pfx)).map
        (logical s.pfx)) := by
  have hfilter : (entries st).filter (fun kv => inRange (translatedStart s.pfx none)
      (translatedEnd s.pfx none) kv.1) =
      (entries st).filter (fun kv => HasPrefix (some kv.1) s.pfx) := by
    congr 1
    funext kv
    exact inRange_nil_nil s.pfx kv.1
  rw [scan_eq s hP none none st fuel hf, hfilter]

theorem stripPrefix_cloneAppend (p key : Slice) :
    stripPrefix (cloneAppend p key) p = .ok (some key.bytes) := by
  show stripPrefix (some (p.bytes ++ key.bytes)) p = .ok (some key.bytes)
  rw [stripPrefix_of_HasPrefix _ _ (HasPrefix_append p key.bytes)]
  simp

/-- C17: key translation round-trips and is injective. `stripPrefix` returns on
`cloneAppend(p, k)` and gives back the bytes of `k`; distinct logical keys have
distinct translated keys. Over a parent that behaves as a map and keeps the
ordered store contract, after `Set(k, v)` the scan with nil bounds yields the pair
`(k, v)`, and the pair it yields for the parent key `p ++ k` is that one; and the
`Key()` of a valid scoped iterator whose parent stands on the entry `p ++ k` is
exactly `k`. -/
theorem key_translation_round_trips {σ ι : Type} (V : Types.Validity) (s : Store σ ι)
    (view : σ → Bytes → Slice) (entries : σ → List (Bytes × Bytes))
    (items : ι → List (Bytes × Bytes)) (hM : MapLike s.parent view)
    (hP : Ordered s.parent entries items) (hC : Consistent view entries)
    (k v : Bytes) (st : σ) (fuel : Nat)
    (hk : V.AssertValidKey (some k) = .ok ()) (hv : V.AssertValidValue (some v) = .ok ())
    (hf : (entries (s.Set V (some k) (some v) st).st).length ≤ fuel) :
    (∀ key : Slice, stripPrefix (cloneAppend s.pfx key) s.pfx = .ok (some key.bytes)) ∧
    stripPrefix (cloneAppend s.pfx (some k)) s.pfx = .ok (some k) ∧
    (∀ k1 k2 : Bytes, k1 ≠ k2 → cloneAppend s.pfx (some k1) ≠ cloneAppend s.pfx (some k2)) ∧
    (∀ k1 k2 : Bytes, k1 ≠ k2 → s.key (some k1) ≠ s.key (some k2)) ∧
    (∃ L, s.scan none none fuel (s.Set V (some k) (some v) st).st = .ok L ∧
      (some k, some v) ∈ L ∧
      (∀ k2 v2 : Bytes, (some k2, some v2) ∈ L → s.pfx.bytes ++ k2 = s.pfx.bytes ++ k →
        k2 = k ∧ v2 = v)) ∧
    (∀ (it : prefixIterator ι) (rest : List (Bytes × Bytes)), it.valid = true →
      it.pfx = s.pfx → items it.iter = (s.pfx.bytes ++ k, v) :: rest →
      (it.Key s.parent.it).val = .ok (some k)) := by
  have hinj : ∀ k1 k2 : Bytes, k1 ≠ k2 →
      cloneAppend s.pfx (some k1) ≠ cloneAppend s.pfx (some k2) := by
    intro k1 k2 hne h
    simp only [cloneAppend, Slice.bytes, Option.getD_some, Option.some.injEq,
      List.append_cancel_left_eq] at h
    exact hne h
  have hset : s.Set V (some k) (some v) st =
      s.parent.Set (some (s.pfx.bytes ++ k)) (some v) st := by
    simp [Store.Set, hk, hv, Store.key, cloneAppend, Slice.bytes]
  have hview : view (s.Set V (some k) (some v) st).st (s.pfx.bytes ++ k) = some v := by
    rw [hset, (hM.set _ _ _).2, Function.update_same]
  have hall : ∀ kv ∈ (entries (s.Set V (some k) (some v) st).st).filter
      (fun kv => HasPrefix (some kv.1) s.pfx), HasPrefix (some kv.1) s.pfx = true :=
    fun kv hkv => (List.mem_filter.mp hkv).2
  refine ⟨stripPrefix_cloneAppend s.pfx, stripPrefix_cloneAppend s.pfx (some k), hinj, ?_,
    ⟨_, scan_nil_nil_eq s hP _ fuel hf, ?_, ?_⟩, ?_⟩
  · intro k1 k2 hne h
    simp only [Store.key, Outcome.ok.injEq] at h
    exact hinj k1 k2 hne h
  · rw [mem_logical_iff s.pfx _ hall k v, List.mem_filter]
    exact ⟨(hC.mem_iff _ _ _).mpr hview, HasPrefix_append s.pfx k⟩
  · intro k2 v2 hmem heq
    have hk2 : k2 = k := List.append_cancel_left heq
    subst hk2
    rw [mem_logical_iff s.pfx _ hall k2 v2, List.mem_filter] at hmem
    have := (hC.mem_iff _ _ _).mp hmem.1
    rw [hview] at this
    exact ⟨rfl, (Option.some.inj this).symm⟩
  · intro it rest hvalid hpfx hitems
    have hp : HasPrefix (some (s.pfx.bytes ++ k, v).1) it.pfx = true := by
      rw [hpfx]
      exact HasPrefix_append s.pfx k
    have := (prefixIterator.Key_of_items hP.iterLike it _ rest hvalid hitems hp).1
    rw [this, hpfx]
    simp

/-- In the namespace `user:` of an in-memory store holding `usez`, after
`Set("alice", "1")` the scan yields the key `alice`, with no byte of `user:` in it. -/
theorem key_translation_round_trips_witness :
    (New MemStore.ops (some (ascii "user:"))).scan none none 2
      ((New MemStore.ops (some (ascii "user:"))).Set MemStore.nonNil
        (some (ascii "alice")) (some (ascii "1")) [(ascii "usez", ascii "3")]).st =
      .ok [(some (ascii "alice"), some (ascii "1"))] ∧
    stripPrefix (cloneAppend (some (ascii "user:")) (some (ascii "alice")))
      (some (ascii "user:")) = .ok (some (ascii "alice")) ∧
    (∃ L, (New MemStore.ops (some (ascii "user:"))).scan none none 2
        ((New MemStore.ops (some (ascii "user:"))).Set MemStore.nonNil
          (some (ascii "alice")) (some (ascii "1")) [(ascii "usez", ascii "3")]).st = .ok L ∧
      (some (ascii "alice"), some (ascii "1")) ∈ L ∧
      (∀ k2 v2 : Bytes, (some k2, some v2) ∈ L →
        Slice.bytes (some (ascii "user:")) ++ k2 =
          Slice.bytes (some (ascii "user:")) ++ ascii "alice" →
        k2 = ascii "alice" ∧ v2 = ascii "1")) :=
  ⟨by decide, by decide,
   (key_translation_round_trips MemStore.nonNil (New MemStore.ops (some (ascii "user:")))
    (fun st k => MemStore.lookup k st) MemStore.canon (fun c => c.rest) MemStore.mapLike
    MemStore.ordered MemStore.consistent (ascii "alice") (ascii "1")
    [(ascii "usez", ascii "3")] 2 rfl rfl (by decide)).2.2.2.2.1⟩

/-! ## Nested scoped stores -/

/-- The bound of a concatenation: the bound of the second part put after the
first part, or the bound of the first part when the second part has none. -/
theorem cpIncr_append (p1 p2 : Bytes) :
    (∀ u, cpIncr (some p2) = some u → cpIncr (some (p1 ++ p2)) = some (p1 ++ u)) ∧
    (cpIncr (some p2) = none → cpIncr (some (p1 ++ p2)) = cpIncr (some p1)) := by
  induction p1 with
  | nil =>
    refine ⟨fun u h => h, fun h => ?_⟩
    rw [List.nil_append, h]
    rfl
  | cons b r ih =>
    constructor
    · intro u h
      rw [List.cons_append, cpIncr_cons, ih.1 u h]
      rfl
    · intro h
      rw [List.cons_append, cpIncr_cons, ih.2 h, ← cpIncr_cons]

theorem translatedStart_nested (p1 p2 start : Slice) :
    translatedStart p1 (translatedStart p2 start) =
      translatedStart (some (p1.bytes ++ p2.bytes)) start := by
  simp [translatedStart, Slice.bytes, List.append_assoc]

theorem translatedEnd_nested (p1 p2 end_ : Slice) :
    translatedEnd p1 (translatedEnd p2 end_) =
      translatedEnd (some (p1.bytes ++ p2.bytes)) end_ := by
  cases end_ with
  | some e => simp [translatedEnd, Slice.bytes, List.append_assoc]
  | none =>
    show translatedEnd p1 (cpIncr p2) = cpIncr (some (p1.bytes ++ p2.bytes))
    cases hu : cpIncr p2 with
    | none =>
      rw [cpIncr_bytes p2] at hu
      rw [(cpIncr_append p1.bytes p2.bytes).2 hu, ← cpIncr_bytes]
      rfl
    | some u =>
      rw [cpIncr_bytes p2] at hu
      rw [(cpIncr_append p1.bytes p2.bytes).1 u hu]
      rfl

theorem Store.Iterator_st {σ ι : Type} (s : Store σ ι) (a b : Slice) (st : σ) :
    (s.Iterator a b st).st =
      (s.parent.Iterator (translatedStart s.pfx a) (translatedEnd s.pfx b) st).st := by
  rw [Store.Iterator_eq]
  cases (s.parent.Iterator (translatedStart s.pfx a) (translatedEnd s.pfx b) st).val <;> rfl

theorem Store.Iterator_val_panic {σ ι : Type} (s : Store σ ι) (a b : Slice) (st : σ)
    (m : String)
    (h : (s.parent.Iterator (translatedStart s.pfx a) (translatedEnd s.pfx b) st).val =
      .panic m) :
    (s.Iterator a b st).val = .panic m := by
  rw [Store.Iterator_eq, h]

theorem Store.Iterator_val_ok {σ ι : Type} (s : Store σ ι) (a b : Slice) (st : σ) (c : ι)
    (h : (s.parent.Iterator (translatedStart s.pfx a) (translatedEnd s.pfx b) st).val = .ok c) :
    (s.Iterator a b st).val = newPrefixIterator s.parent.it s.pfx a b c := by
  rw [Store.Iterator_eq, h]

theorem Store.ReverseIterator_st {σ ι : Type} (s : Store σ ι) (a b : Slice) (st : σ) :
    (s.ReverseIterator a b st).st =
      (s.parent.ReverseIterator (translatedStart s.pfx a) (translatedEnd s.pfx b) st).st := by
  rw [Store.ReverseIterator_eq]
  cases (s.parent.ReverseIterator (translatedStart s.pfx a)
    (translatedEnd s.pfx b) st).val <;> rfl

/-- C18: nesting composes by concatenation. With `nested = New(New(parent, p1), p2)`
and `flat = New(parent, p1 ++ p2)`: on every non-nil key `k`, `Get`, `Has` and
`Delete` of both are the parent's call at `p1 ++ p2 ++ k`; `Set` of `flat` reaches
the parent at that key, and `Set` of `nested` either does the same or aborts in
the validity rules with the parent as it was (it does the same when the rules
accept `p2 ++ k`). For every logical `start` and `end`, the range translated
through `p2` and then `p1` is the range translated through `p1 ++ p2`, so
`Iterator` and `ReverseIterator` of both leave the parent in the state of the
parent's call over that one range, and abort when that call aborts. The bound
`cpIncr(p1 ++ p2)` is `p1 ++ cpIncr(p2)` when `cpIncr(p2)` is not nil, and
`cpIncr(p1)` otherwise. -/
theorem nesting_composes_by_concatenation {σ ι : Type} (V : Types.Validity)
    (parent : Types.Store σ ι) (p1 p2 : Slice) (st : σ) :
    (∀ k : Bytes,
      (New ((New parent p1).ops V) p2).Get (some k) st =
        parent.Get (some (p1.bytes ++ p2.bytes ++ k)) st ∧
      (New parent (some (p1.bytes ++ p2.bytes))).Get (some k) st =
        parent.Get (some (p1.bytes ++ p2.bytes ++ k)) st ∧
      (New ((New parent p1).ops V) p2).Has (some k) st =
        parent.Has (some (p1.bytes ++ p2.bytes ++ k)) st ∧
      (New parent (some (p1.bytes ++ p2.bytes))).Has (some k) st =
        parent.Has (some (p1.bytes ++ p2.bytes ++ k)) st ∧
      (New ((New parent p1).ops V) p2).Delete (some k) st =
        parent.Delete (some (p1.bytes ++ p2.bytes ++ k)) st ∧
      (New parent (some (p1.bytes ++ p2.bytes))).Delete (some k) st =
        parent.Delete (some (p1.bytes ++ p2.bytes ++ k)) st) ∧
    (∀ (k : Bytes) (value : Slice),
      ((New parent (some (p1.bytes ++ p2.bytes))).Set V (some k) value st =
          parent.Set (some (p1.bytes ++ p2.bytes ++ k)) value st ∨
        ((New parent (some (p1.bytes ++ p2.bytes))).Set V (some k) value st).val.isPanic = true ∧
        ((New parent (some (p1.bytes ++ p2.bytes))).Set V (some k) value st).st = st) ∧
      ((New ((New parent p1).ops V) p2).Set V (some k) value st =
          parent.Set (some (p1.bytes ++ p2.bytes ++ k)) value st ∨
        ((New ((New parent p1).ops V) p2).Set V (some k) value st).val.isPanic = true ∧
        ((New ((New parent p1).ops V) p2).Set V (some k) value st).st = st) ∧
      (V.AssertValidKey (some (p2.bytes ++ k)) = .ok () →
        (New ((New parent p1).ops V) p2).Set V (some k) value st =
          (New parent (some (p1.bytes ++ p2.bytes))).Set V (some k) value st)) ∧
    (∀ start end_ : Slice,
      translatedStart p1 (translatedStart p2 start) =
        translatedStart (some (p1.bytes ++ p2.bytes)) start ∧
      translatedEnd p1 (translatedEnd p2 end_) =
        translatedEnd (some (p1.bytes ++ p2.bytes)) end_ ∧
      ((New ((New parent p1).ops V) p2).Iterator start end_ st).st =
        (parent.Iterator (translatedStart (some (p1.bytes ++ p2.bytes)) start)
          (translatedEnd (some (p1.bytes ++ p2.bytes)) end_) st).st ∧
      ((New parent (some (p1.bytes ++ p2.bytes))).Iterator start end_ st).st =
        (parent.Iterator (translatedStart (some (p1.bytes ++ p2.bytes)) start)
          (translatedEnd (some (p1.bytes ++ p2.bytes)) end_) st).st ∧
      ((New ((New parent p1).ops V) p2).ReverseIterator start end_ st).st =
        (parent.ReverseIterator (translatedStart (some (p1.bytes ++ p2.bytes)) start)
          (translatedEnd (some (p1.bytes ++ p2.bytes)) end_) st).st ∧
      ((New parent (some (p1.bytes ++ p2.bytes))).ReverseIterator start end_ st).st =
        (parent.ReverseIterator (translatedStart (some (p1.bytes ++ p2.bytes)) start)
          (translatedEnd (some (p1.bytes ++ p2.bytes)) end_) st).st ∧
      (∀ m, (parent.Iterator (translatedStart (some (p1.bytes ++ p2.bytes)) start)
          (translatedEnd (some (p1.bytes ++ p2.bytes)) end_) st).val = .panic m →
        ((New ((New parent p1).ops V) p2).Iterator start end_ st).val = .panic m ∧
        ((New parent (some (p1.bytes ++ p2.bytes))).Iterator start end_ st).val = .panic m) ∧
      (∀ c, (parent.Iterator (translatedStart (some (p1.bytes ++ p2.bytes)) start)
          (translatedEnd (some (p1.bytes ++ p2.bytes)) end_) st).val = .ok c →
        ((New parent (some (p1.bytes ++ p2.bytes))).Iterator start end_ st).val =
          newPrefixIterator parent.it (some (p1.bytes ++ p2.bytes)) start end_ c ∧
        ∀ it1, newPrefixIterator parent.it p1 (translatedStart p2 start)
            (translatedEnd p2 end_) c = .ok it1 →
          ((New ((New parent p1).ops V) p2).Iterator start end_ st).val =
            newPrefixIterator (prefixIterator.ops parent.it) p2 start end_ it1)) ∧
    (∀ u, cpIncr p2 = some u → cpIncr (some (p1.bytes ++ p2.bytes)) = some (p1.bytes ++ u)) ∧
    (cpIncr p2 = none → cpIncr (some (p1.bytes ++ p2.bytes)) = cpIncr p1) := by
  have hflatSet : ∀ (k : Bytes) (value : Slice),
      (New parent (some (p1.bytes ++ p2.bytes))).Set V (some k) value st =
        match V.AssertValidKey (some k) with
        | .panic m => ⟨.panic m, st⟩
        | .ok _ =>
          match V.AssertValidValue value with
          | .panic m => ⟨.panic m, st⟩
          | .ok _ => parent.Set (some (p1.bytes ++ p2.bytes ++ k)) value st := fun _ _ => rfl
  have hnestSet : ∀ (k : Bytes) (value : Slice),
      (New ((New parent p1).ops V) p2).Set V (some k) value st =
        match V.AssertValidKey (some k) with
        | .panic m => ⟨.panic m, st⟩
        | .ok _ =>
          match V.AssertValidValue value with
          | .panic m => ⟨.panic m, st⟩
          | .ok _ =>
            match V.AssertValidKey (some (p2.bytes ++ k)) with
            | .panic m => ⟨.panic m, st⟩
            | .ok _ => parent.Set (some (p1.bytes ++ p2.bytes ++ k)) value st := by
    intro k value
    cases h1 : V.AssertValidKey (some k) with
    | panic m => simp [Store.Set, h1]
    | ok u1 =>
      cases h2 : V.AssertValidValue value with
      | panic m => simp [Store.Set, h1, h2]
      | ok u2 =>
        cases h3 : V.AssertValidKey (some (p2.bytes ++ k)) with
        | panic m =>
          simp [Store.Set, Store.ops, New, Store.key, cloneAppend, Slice.bytes, h1, h2]
          simp [Slice.bytes] at h3
          simp [h3]
        | ok u3 =>
          simp [Store.Set, Store.ops, New, Store.key, cloneAppend, Slice.bytes, h1, h2]
          simp [Slice.bytes] at h3
          simp [h3, h2]
  have hTS := translatedStart_nested p1 p2
  have hTE := translatedEnd_nested p1 p2
  refine ⟨?_, ?_, ?_, ?_, ?_⟩
  · intro k
    have e : p1.bytes ++ (p2.bytes ++ k) = p1.bytes ++ p2.bytes ++ k :=
      (List.append_assoc _ _ _).symm
    refine ⟨?_, rfl, ?_, rfl, ?_, rfl⟩
    · show parent.Get (some (p1.bytes ++ (p2.bytes ++ k))) st = _
      rw [e]
    · show parent.Has (some (p1.bytes ++ (p2.bytes ++ k))) st = _
      rw [e]
    · show parent.Delete (some (p1.bytes ++ (p2.bytes ++ k))) st = _
      rw [e]
  · intro k value
    rw [hflatSet, hnestSet]
    cases h1 : V.AssertValidKey (some k) with
    | panic m => exact ⟨Or.inr ⟨rfl, rfl⟩, Or.inr ⟨rfl, rfl⟩, fun _ => rfl⟩
    | ok u1 =>
      cases h2 : V.AssertValidValue value with
      | panic m => exact ⟨Or.inr ⟨rfl, rfl⟩, Or.inr ⟨rfl, rfl⟩, fun _ => rfl⟩
      | ok u2 =>
        cases h3 : V.AssertValidKey (some (p2.bytes ++ k)) with
        | panic m => exact ⟨Or.inl rfl, Or.inr ⟨rfl, rfl⟩, fun h => by cases h⟩
        | ok u3 => exact ⟨Or.inl rfl, Or.inl rfl, fun _ => rfl⟩
  · intro start end_
    have hin : ∀ x, (parent.Iterator (translatedStart p1 (translatedStart p2 start))
        (translatedEnd p1 (translatedEnd p2 end_)) st).val = x →
        (parent.Iterator (translatedStart (some (p1.bytes ++ p2.bytes)) start)
          (translatedEnd (some (p1.bytes ++ p2.bytes)) end_) st).val = x := by
      intro x hx
      rw [← hTS, ← hTE]
      exact hx
    refine ⟨hTS start, hTE end_, ?_, ?_, ?_, ?_, ?_, ?_⟩
    · refine (Store.Iterator_st (New ((New parent p1).ops V) p2) start end_ st).trans ?_
      refine (Store.Iterator_st (New parent p1) (translatedStart p2 start)
        (translatedEnd p2 end_) st).trans ?_
      show (parent.Iterator (translatedStart p1 (translatedStart p2 start))
        (translatedEnd p1 (translatedEnd p2 end_)) st).st = _
      rw [hTS, hTE]
    · exact Store.Iterator_st (New parent (some (p1.bytes ++ p2.bytes))) start end_ st
    · refine (Store.ReverseIterator_st (New ((New parent p1).ops V) p2) start end_ st).trans ?_
      refine (Store.ReverseIterator_st (New parent p1) (translatedStart p2 start)
        (translatedEnd p2 end_) st).trans ?_
      show (parent.ReverseIterator (translatedStart p1 (translatedStart p2 start))
        (translatedEnd p1 (translatedEnd p2 end_)) st).st = _
      rw [hTS, hTE]
    · exact Store.ReverseIterator_st (New parent (some (p1.bytes ++ p2.bytes))) start end_ st
    · intro m hm
      rw [← hTS, ← hTE] at hm
      refine ⟨?_, ?_⟩
      · refine Store.Iterator_val_panic (New ((New parent p1).ops V) p2) start end_ st m ?_
        exact Store.Iterator_val_panic (New parent p1) (translatedStart p2 start)
          (translatedEnd p2 end_) st m hm
      · exact Store.Iterator_val_panic (New parent (some (p1.bytes ++ p2.bytes))) start end_
          st m (hin _ hm)
    · intro c hc
      refine ⟨Store.Iterator_val_ok (New parent (some (p1.bytes ++ p2.bytes))) start end_
        st c hc, ?_⟩
      intro it1 h1
      rw [← hTS, ← hTE] at hc
      have h2 : ((New parent p1).Iterator (translatedStart p2 start)
          (translatedEnd p2 end_) st).val = .ok it1 := by
        rw [Store.Iterator_val_ok (New parent p1) (translatedStart p2 start)
          (translatedEnd p2 end_) st c hc]
        exact h1
      exact Store.Iterator_val_ok (New ((New parent p1).ops V) p2) start end_ st it1 h2
  · intro u hu
    rw [cpIncr_bytes p2] at hu
    exact (cpIncr_append p1.bytes p2.bytes).1 u hu
  · intro hu
    rw [cpIncr_bytes p2] at hu
    rw [(cpIncr_append p1.bytes p2.bytes).2 hu, ← cpIncr_bytes]

/-- With the prefix `ns:` nested in front of `0x01 0xFF`, both stores yield the
same scan of an in-memory parent, `Set` of both writes the same parent key, and
the bound of the concatenation is `ns:` followed by the bound `0x02`. -/
theorem nesting_composes_by_concatenation_witness :
    (New ((New MemStore.ops (some (ascii "ns:"))).ops MemStore.nonNil) (some [1, 255])).scan
        none none 3
        [(ascii "ns:" ++ [1, 255, 7], ascii "a"), (ascii "ns:" ++ [1, 255, 255], ascii "b"),
          (ascii "ns:" ++ [2], ascii "c")] =
      .ok [(some [7], some (ascii "a")), (some [255], some (ascii "b"))] ∧
    (New MemStore.ops (some (Slice.bytes (some (ascii "ns:")) ++ Slice.bytes (some [1, 255])))).scan
        none none 3
        [(ascii "ns:" ++ [1, 255, 7], ascii "a"), (ascii "ns:" ++ [1, 255, 255], ascii "b"),
          (ascii "ns:" ++ [2], ascii "c")] =
      .ok [(some [7], some (ascii "a")), (some [255], some (ascii "b"))] ∧
    (New ((New MemStore.ops (some (ascii "ns:"))).ops MemStore.nonNil) (some [1, 255])).Set
        MemStore.nonNil (some (ascii "k")) (some (ascii "v")) [] =
      (New MemStore.ops (some (Slice.bytes (some (ascii "ns:")) ++
        Slice.bytes (some [1, 255])))).Set
        MemStore.nonNil (some (ascii "k")) (some (ascii "v")) [] ∧
    cpIncr (some (Slice.bytes (some (ascii "ns:")) ++ Slice.bytes (some [1, 255]))) =
      some (Slice.bytes (some (ascii "ns:")) ++ [2]) :=
  ⟨by decide, by decide,
   ((nesting_composes_by_concatenation MemStore.nonNil MemStore.ops (some (ascii "ns:"))
      (some [1, 255]) []).2.1 (ascii "k") (some (ascii "v"))).2.2 rfl,
   (nesting_composes_by_concatenation MemStore.nonNil MemStore.ops (some (ascii "ns:"))
      (some [1, 255]) []).2.2.2.1 [2] (by decide)⟩

/-! ## Isolation of namespaces -/

/-- Two lists of entries by ascending key that hold the same entries among
those selected have the same selected entries, in the same order. -/
theorem filter_eq_of_mem_iff (l1 l2 : List (Bytes × Bytes)) (P : Bytes × Bytes → Bool)
    (h1 : (l1.map Prod.fst).Sorted (· < ·)) (h2 : (l2.map Prod.fst).Sorted (· < ·))
    (h : ∀ kv, P kv = true → (kv ∈ l1 ↔ kv ∈ l2)) :
    l1.filter P = l2.filter P := by
  have s1 : (l1.filter P).Sorted (fun a b => a.1 < b.1) :=
    (List.pairwise_map.mp h1).filter P
  have s2 : (l2.filter P).Sorted (fun a b => a.1 < b.1) :=
    (List.pairwise_map.mp h2).filter P
  haveI : IsAntisymm (Bytes × Bytes) (fun a b => a.1 < b.1) :=
    ⟨fun _ _ hab hba => absurd hab (lt_asymm hba)⟩
  refine List.eq_of_perm_of_sorted ?_ s1 s2
  refine (List.perm_ext_iff_of_nodup ((nodup_of_sorted_keys l1 h1).filter P)
    ((nodup_of_sorted_keys l2 h2).filter P)).mpr ?_
  intro kv
  rw [List.mem_filter, List.mem_filter]
  constructor
  · exact fun hm => ⟨(h kv hm.2).mp hm.1, hm.2⟩
  · exact fun hm => ⟨(h kv hm.2).mpr hm.1, hm.2⟩

/-- A key of the namespace `q` is not a translated key of a namespace `p` that
is incomparable with `q`. -/
theorem ne_append_of_incomparable (p q : Slice) (hpq : HasPrefix q p = false)
    (hqp : HasPrefix p q = false) (x k : Bytes) (hx : HasPrefix (some x) q = true) :
    x ≠ p.bytes ++ k := by
  rintro rfl
  have h1 : q.bytes <+: p.bytes ++ k := (HasPrefix_iff _ _).mp hx
  rcases List.prefix_or_prefix_of_prefix h1 (List.prefix_append p.bytes k) with h | h
  · have := (HasPrefix_iff p q).mpr h
    rw [hqp] at this
    cases this
  · have := (HasPrefix_iff q p).mpr h
    rw [hpq] at this
    cases this

/-- A parent state whose map agrees with that of `st` on the namespace `q`
gives the scoped store of `q` the same reads and the same scans. -/
theorem same_namespace_same_reads {σ ι : Type} (parent : Types.Store σ ι)
    (view : σ → Bytes → Slice) (entries : σ → List (Bytes × Bytes))
    (items : ι → List (Bytes × Bytes)) (hM : MapLike parent view)
    (hP : Ordered parent entries items) (hR : ReverseOrdered parent entries items)
    (hC : Consistent view entries) (q : Slice) (st st2 : σ)
    (hagree : ∀ x, HasPrefix (some x) q = true → view st2 x = view st x) :
    (∀ k2 : Bytes,
      ((New parent q).Get (some k2) st2).val = ((New parent q).Get (some k2) st).val ∧
      ((New parent q).Has (some k2) st2).val = ((New parent q).Has (some k2) st).val) ∧
    (∀ (start end_ : Slice) (fuel : Nat), (entries st).length ≤ fuel →
      (entries st2).length ≤ fuel →
      (New parent q).scan start end_ fuel st2 = (New parent q).scan start end_ fuel st ∧
      (New parent q).scanReverse start end_ fuel st2 =
        (New parent q).scanReverse start end_ fuel st) := by
  constructor
  · intro k2
    have hg : ∀ s0, (New parent q).Get (some k2) s0 = parent.Get (some (q.bytes ++ k2)) s0 :=
      fun _ => rfl
    have hh : ∀ s0, (New parent q).Has (some k2) s0 = parent.Has (some (q.bytes ++ k2)) s0 :=
      fun _ => rfl
    rw [hg, hg, hh, hh, (hM.get _ _).1, (hM.get _ _).1, (hM.has _ _).1, (hM.has _ _).1,
      hagree _ (HasPrefix_append q k2)]
    exact ⟨rfl, rfl⟩
  · intro start end_ fuel hf hf2
    have hfilter : (entries st2).filter (fun kv => inRange (translatedStart q start)
        (translatedEnd q end_) kv.1) =
        (entries st).filter (fun kv => inRange (translatedStart q start)
          (translatedEnd q end_) kv.1) := by
      refine filter_eq_of_mem_iff _ _ _ (hP.sorted st2) (hP.sorted st) ?_
      intro kv hkv
      have hx : HasPrefix (some kv.1) q = true := HasPrefix_of_inRange q start end_ kv.1 hkv
      have e : kv = (kv.1, kv.2) := rfl
      rw [e, hC.mem_iff, hC.mem_iff, hagree _ hx]
    have e1 := scan_eq (New parent q) hP start end_ st fuel hf
    have e2 := scan_eq (New parent q) hP start end_ st2 fuel hf2
    have e3 := scanReverse_eq (New parent q) hP hR start end_ st fuel hf
    have e4 := scanReverse_eq (New parent q) hP hR start end_ st2 fuel hf2
    have hq : (New parent q).pfx = q := rfl
    rw [hq] at e1 e2 e3 e4
    rw [e1, e2, e3, e4, hfilter]
    exact ⟨rfl, rfl⟩

/-- C19: namespaces with incomparable prefixes are isolated. Over a parent that
behaves as a map and keeps the ordered store contract in both directions, with
`p` and `q` such that neither is a prefix of the other, a `Set(k, v)` (accepted by
the validity rules) or a `Delete(k)` on `New(parent, p)` leaves, on
`New(parent, q)`: the result of `Get(k2)` and of `Has(k2)` for every non-nil `k2`,
and the sequence drained from `Iterator(start, end)` and from
`ReverseIterator(start, end)` for all `start` and `end` (given fuel for the
entries of the parent). -/
theorem incomparable_namespaces_isolated {σ ι : Type} (V : Types.Validity)
    (parent : Types.Store σ ι) (view : σ → Bytes → Slice)
    (entries : σ → List (Bytes × Bytes)) (items : ι → List (Bytes × Bytes))
    (hM : MapLike parent view) (hP : Ordered parent entries items)
    (hR : ReverseOrdered parent entries items) (hC : Consistent view entries)
    (p q : Slice) (hpq : HasPrefix q p = false) (hqp : HasPrefix p q = false)
    (k v : Bytes) (st : σ)
    (hk : V.AssertValidKey (some k) = .ok ()) (hv : V.AssertValidValue (some v) = .ok ()) :
    ((New parent p).Set V (some k) (some v) st).val = .ok () ∧
    ((New parent p).Delete (some k) st).val = .ok () ∧
    (∀ k2 : Bytes,
      ((New parent q).Get (some k2) ((New parent p).Set V (some k) (some v) st).st).val =
        ((New parent q).Get (some k2) st).val ∧
      ((New parent q).Has (some k2) ((New parent p).Set V (some k) (some v) st).st).val =
        ((New parent q).Has (some k2) st).val ∧
      ((New parent q).Get (some k2) ((New parent p).Delete (some k) st).st).val =
        ((New parent q).Get (some k2) st).val ∧
      ((New parent q).Has (some k2) ((New parent p).Delete (some k) st).st).val =
        ((New parent q).Has (some k2) st).val) ∧
    (∀ (start end_ : Slice) (fuel : Nat), (entries st).length ≤ fuel →
      (entries ((New parent p).Set V (some k) (some v) st).st).length ≤ fuel →
      (entries ((New parent p).Delete (some k) st).st).length ≤ fuel →
      ∃ L, (New parent q).scan start end_ fuel st = .ok L ∧
        (New parent q).scanReverse start end_ fuel st = .ok L.reverse ∧
        (New parent q).scan start end_ fuel ((New parent p).Set V (some k) (some v) st).st =
          .ok L ∧
        (New parent q).scanReverse start end_ fuel
          ((New parent p).Set V (some k) (some v) st).st = .ok L.reverse ∧
        (New parent q).scan start end_ fuel ((New parent p).Delete (some k) st).st = .ok L ∧
        (New parent q).scanReverse start end_ fuel ((New parent p).Delete (some k) st).st =
          .ok L.reverse) := by
  have hset : (New parent p).Set V (some k) (some v) st =
      parent.Set (some (p.bytes ++ k)) (some v) st := by
    simp [Store.Set, hk, hv, Store.key, cloneAppend, Slice.bytes, New]
  have hdel : (New parent p).Delete (some k) st = parent.Delete (some (p.bytes ++ k)) st := rfl
  have hagree1 : ∀ x, HasPrefix (some x) q = true →
      view ((New parent p).Set V (some k) (some v) st).st x = view st x := by
    intro x hx
    rw [hset, (hM.set _ _ _).2]
    exact Function.update_noteq (ne_append_of_incomparable p q hpq hqp x k hx) _ _
  have hagree2 : ∀ x, HasPrefix (some x) q = true →
      view ((New parent p).Delete (some k) st).st x = view st x := by
    intro x hx
    rw [hdel, (hM.delete _ _).2]
    exact Function.update_noteq (ne_append_of_incomparable p q hpq hqp x k hx) _ _
  obtain ⟨r1, s1⟩ := same_namespace_same_reads parent view entries items hM hP hR hC q st _
    hagree1
  obtain ⟨r2, s2⟩ := same_namespace_same_reads parent view entries items hM hP hR hC q st _
    hagree2
  refine ⟨by rw [hset]; exact (hM.set _ _ _).1, by rw [hdel]; exact (hM.delete _ _).1, ?_, ?_⟩
  · intro k2
    exact ⟨(r1 k2).1, (r1 k2).2, (r2 k2).1, (r2 k2).2⟩
  · intro start end_ fuel hf hf1 hf2
    refine ⟨_, scan_eq (New parent q) hP start end_ st fuel hf,
      scanReverse_eq (New parent q) hP hR start end_ st fuel hf, ?_, ?_, ?_, ?_⟩
    · rw [(s1 start end_ fuel hf hf1).1]
      exact scan_eq (New parent q) hP start end_ st fuel hf
    · rw [(s1 start end_ fuel hf hf1).2]
      exact scanReverse_eq (New parent q) hP hR start end_ st fuel hf
    · rw [(s2 start end_ fuel hf hf2).1]
      exact scan_eq (New parent q) hP start end_ st fuel hf
    · rw [(s2 start end_ fuel hf hf2).2]
      exact scanReverse_eq (New parent q) hP hR start end_ st fuel hf

/-- The namespaces `ab` and `ac` of an in-memory store: a `Set` and a `Delete` in
`ab` leave the reads and the scan of `ac` as they were. -/
theorem incomparable_namespaces_isolated_witness :
    HasPrefix (some (ascii "ac")) (some (ascii "ab")) = false ∧
    HasPrefix (some (ascii "ab")) (some (ascii "ac")) = false ∧
    (New MemStore.ops (some (ascii "ac"))).scan none none 4
      ((New MemStore.ops (some (ascii "ab"))).Set MemStore.nonNil (some (ascii "z"))
        (some (ascii "9"))
        [(ascii "ab1", ascii "1"), (ascii "ac1", ascii "2"), (ascii "ac2", ascii "3")]).st =
      .ok [(some (ascii "1"), some (ascii "2")), (some (ascii "2"), some (ascii "3"))] ∧
    (New MemStore.ops (some (ascii "ac"))).scan none none 4
      [(ascii "ab1", ascii "1"), (ascii "ac1", ascii "2"), (ascii "ac2", ascii "3")] =
      .ok [(some (ascii "1"), some (ascii "2")), (some (ascii "2"), some (ascii "3"))] ∧
    (∀ k2 : Bytes,
      ((New MemStore.ops (some (ascii "ac"))).Get (some k2)
        ((New MemStore.ops (some (ascii "ab"))).Set MemStore.nonNil (some (ascii "z"))
          (some (ascii "9"))
          [(ascii "ab1", ascii "1"), (ascii "ac1", ascii "2"),
            (ascii "ac2", ascii "3")]).st).val =
        ((New MemStore.ops (some (ascii "ac"))).Get (some k2)
          [(ascii "ab1", ascii "1"), (ascii "ac1", ascii "2"), (ascii "ac2", ascii "3")]).val ∧
      ((New MemStore.ops (some (ascii "ac"))).Has (some k2)
        ((New MemStore.ops (some (ascii "ab"))).Set MemStore.nonNil (some (ascii "z"))
          (some (ascii "9"))
          [(ascii "ab1", ascii "1"), (ascii "ac1", ascii "2"),
            (ascii "ac2", ascii "3")]).st).val =
        ((New MemStore.ops (some (ascii "ac"))).Has (some k2)
          [(ascii "ab1", ascii "1"), (ascii "ac1", ascii "2"), (ascii "ac2", ascii "3")]).val ∧
      ((New MemStore.ops (some (ascii "ac"))).Get (some k2)
        ((New MemStore.ops (some (ascii "ab"))).Delete (some (ascii "z"))
          [(ascii "ab1", ascii "1"), (ascii "ac1", ascii "2"),
            (ascii "ac2", ascii "3")]).st).val =
        ((New MemStore.ops (some (ascii "ac"))).Get (some k2)
          [(ascii "ab1", ascii "1"), (ascii "ac1", ascii "2"), (ascii "ac2", ascii "3")]).val ∧
      ((New MemStore.ops (some (ascii "ac"))).Has (some k2)
        ((New MemStore.ops (some (ascii "ab"))).Delete (some (ascii "z"))
          [(ascii "ab1", ascii "1"), (ascii "ac1", ascii "2"),
            (ascii "ac2", ascii "3")]).st).val =
        ((New MemStore.ops (some (ascii "ac"))).Has (some k2)
          [(ascii "ab1", ascii "1"), (ascii "ac1", ascii "2"),
            (ascii "ac2", ascii "3")]).val) :=
  ⟨by decide, by decide, by decide, by decide,
   (incomparable_namespaces_isolated MemStore.nonNil MemStore.ops
    (fun st k => MemStore.lookup k st) MemStore.canon (fun c => c.rest) MemStore.mapLike
    MemStore.ordered MemStore.reverseOrdered MemStore.consistent (some (ascii "ab"))
    (some (ascii "ac")) (by decide) (by decide) (ascii "z") (ascii "9")
    [(ascii "ab1", ascii "1"), (ascii "ac1", ascii "2"), (ascii "ac2", ascii "3")]
    rfl rfl).2.2.1⟩

end PrefixStore
